import Mathlib

/-!
# MarkdownNode

A shallow embedding of `src/MarkdownNode.cpp` (ghostwriter): the node-kind
taxonomy, the classification of parser nodes, the copy of parser data into a
node, the intrusive tree links, and the derived structural queries.

Conventions of the embedding:

* a C++ `int` is an `Int`; every arithmetic result goes through `wrapInt`
  (32-bit two's complement), so statements about exact arithmetic carry the
  range of their inputs as hypotheses;
* a `MarkdownNode*` is an `Option Nat` (`none` is `NULL`), an address into a
  `Heap`, which is the list of all allocated nodes;
* a loop over pointers takes a fuel argument and answers `none` when the fuel
  runs out or when it follows a pointer that is not allocated.
-/

namespace MarkdownNode

/-! ## Machine integers -/

/-- Wrap an integer to the range of a 32-bit signed `int`. -/
def wrapInt (x : Int) : Int := (x + 2147483648) % 4294967296 - 2147483648

/-- The values a C++ `int` can hold. -/
def IsInt (x : Int) : Prop := -2147483648 ≤ x ∧ x ≤ 2147483647

instance (x : Int) : Decidable (IsInt x) := by
  unfold IsInt; infer_instance

/-! ## The node-kind taxonomy -/

/-- The kinds of `MarkdownNode::NodeType`, named as in the source. -/
inductive NodeType where
  | Invalid
  | Document
  | BlockQuote
  | NumberedList
  | BulletList
  | TaskListItem
  | ListItem
  | CodeBlock
  | HtmlBlock
  | Paragraph
  | Heading
  | ThematicBreak
  | FootnoteDefinition
  | Table
  | TableHeading
  | TableRow
  | TableCell
  | Text
  | Softbreak
  | Linebreak
  | Code
  | HtmlInline
  | Emph
  | Strong
  | Link
  | Image
  | Strikethrough
  | FootnoteReference
  deriving DecidableEq, Repr

/-- Modelled from the spec: the declaration of `enum NodeType` lives in
`MarkdownNode.h`, which is not among the sources. The spec describes the block
kinds and the inline kinds as two disjoint contiguous ranges and lists each in
order; the ordinals below follow that order (the block kinds, then the inline
kinds), with `Invalid` placed before the first block kind, where the `switch`
of `toString(NodeType)` in the source lists it. -/
def NodeType.toInt : NodeType → Int
  | .Invalid => -1
  | .Document => 0
  | .BlockQuote => 1
  | .NumberedList => 2
  | .BulletList => 3
  | .TaskListItem => 4
  | .ListItem => 5
  | .CodeBlock => 6
  | .HtmlBlock => 7
  | .Paragraph => 8
  | .Heading => 9
  | .ThematicBreak => 10
  | .FootnoteDefinition => 11
  | .Table => 12
  | .TableHeading => 13
  | .TableRow => 14
  | .TableCell => 15
  | .Text => 16
  | .Softbreak => 17
  | .Linebreak => 18
  | .Code => 19
  | .HtmlInline => 20
  | .Emph => 21
  | .Strong => 22
  | .Link => 23
  | .Image => 24
  | .Strikethrough => 25
  | .FootnoteReference => 26

/-- Modelled from the spec: the enumerator `FirstBlockType` of the missing
header, the first of the block kinds the spec lists. -/
def FirstBlockType : Int := NodeType.Document.toInt

/-- Modelled from the spec: the enumerator `LastBlockType` of the missing
header, the last of the block kinds the spec lists. -/
def LastBlockType : Int := NodeType.TableCell.toInt

/-- Modelled from the spec: the enumerator `FirstInlineType` of the missing
header, the first of the inline kinds the spec lists. -/
def FirstInlineType : Int := NodeType.Text.toInt

/-- Modelled from the spec: the enumerator `LastInlineType` of the missing
header, the last of the inline kinds the spec lists. -/
def LastInlineType : Int := NodeType.FootnoteReference.toInt

/-! ## The parser's node (cmark-gfm), as far as the source queries it -/

/-- The result of `cmark_node_get_type`: the twenty tags the primary dispatch
of `getNodeType` names, and every other tag (custom blocks and inlines, the
tags the extensions register at run time). -/
inductive CmarkNodeType where
  | DOCUMENT
  | BLOCK_QUOTE
  | LIST
  | ITEM
  | CODE_BLOCK
  | HTML_BLOCK
  | PARAGRAPH
  | HEADING
  | THEMATIC_BREAK
  | FOOTNOTE_DEFINITION
  | TEXT
  | SOFTBREAK
  | LINEBREAK
  | CODE
  | HTML_INLINE
  | EMPH
  | STRONG
  | LINK
  | IMAGE
  | FOOTNOTE_REFERENCE
  | other (tag : Nat)
  deriving DecidableEq, Repr

/-- The tags handled by a `case` of the primary dispatch. -/
def CmarkNodeType.isFirstClass : CmarkNodeType → Bool
  | .other _ => false
  | _ => true

/-- The result of `cmark_node_get_list_type`. -/
inductive CmarkListType where
  | NO_LIST
  | BULLET_LIST
  | ORDERED_LIST
  deriving DecidableEq, Repr

/-- What the source reads from a `cmark_node`, one field per accessor. -/
structure CmarkNode where
  /-- Result of `cmark_node_get_type`. -/
  type : CmarkNodeType
  /-- Result of `cmark_node_get_type_string`. -/
  typeString : String
  /-- Result of `cmark_node_get_list_type`. -/
  listType : CmarkListType
  /-- Result of `cmark_node_get_list_start`. -/
  listStart : Int
  /-- Result of `cmark_node_get_start_line`. -/
  startLine : Int
  /-- Result of `cmark_node_get_end_line`. -/
  endLine : Int
  /-- Result of `cmark_node_get_start_column`. -/
  startColumn : Int
  /-- Result of `cmark_node_get_end_column`. -/
  endColumn : Int
  /-- Result of `cmark_node_get_literal`, `none` for a null pointer. -/
  literal : Option String
  /-- Return value of `cmark_node_get_fenced`. -/
  fenced : Bool
  /-- The character `cmark_node_get_fenced` stores through its last argument. -/
  fenceCharacter : Char
  /-- Result of `cmark_node_get_heading_level`. -/
  headingLevel : Int
  /-- Result of `cmark_node_get_string_content`, `none` for a null pointer. -/
  stringContent : Option String
  deriving Repr

/-- The classification `MarkdownNode::getNodeType`: the primary dispatch on the
tag, the sub-dispatch of lists and items, and the fallback on the type string
in the `default` branch. -/
def getNodeType (node : CmarkNode) : NodeType :=
  match node.type with
  | .DOCUMENT => .Document
  | .BLOCK_QUOTE => .BlockQuote
  | .LIST =>
    match node.listType with
    | .ORDERED_LIST => .NumberedList
    | .BULLET_LIST => .BulletList
    | _ => .Invalid
  | .ITEM =>
    if node.typeString = "tasklist" then .TaskListItem else .ListItem
  | .CODE_BLOCK => .CodeBlock
  | .HTML_BLOCK => .HtmlBlock
  | .PARAGRAPH => .Paragraph
  | .HEADING => .Heading
  | .THEMATIC_BREAK => .ThematicBreak
  | .FOOTNOTE_DEFINITION => .FootnoteDefinition
  | .TEXT => .Text
  | .SOFTBREAK => .Softbreak
  | .LINEBREAK => .Linebreak
  | .CODE => .Code
  | .HTML_INLINE => .HtmlInline
  | .EMPH => .Emph
  | .STRONG => .Strong
  | .LINK => .Link
  | .IMAGE => .Image
  | .FOOTNOTE_REFERENCE => .FootnoteReference
  | .other _ =>
    if node.typeString = "table" then .Table
    else if node.typeString = "table_row" then .TableRow
    else if node.typeString = "table_header" then .TableHeading
    else if node.typeString = "table_cell" then .TableCell
    else if node.typeString = "strikethrough" then .Strikethrough
    else .Invalid

/-! ## Qt strings, as far as the source uses them -/

/-- The conversion of a C string to a `QString`; a null pointer gives the
empty string. -/
def fromCString (s : Option String) : String := s.getD ""

/-- The test `QChar::isSpace`: the ASCII white space (space, tab, line feed,
vertical tab, form feed, carriage return), the next-line and no-break space
characters, and the Unicode separators. -/
def isSpace (c : Char) : Bool :=
  let n := c.toNat
  (9 ≤ n && n ≤ 13) || n == 32 || n == 133 || n == 160 || n == 5760
    || (8192 ≤ n && n ≤ 8202) || n == 8232 || n == 8233 || n == 8239
    || n == 8287 || n == 12288

/-- The method `QString::simplified`: white space removed from both ends and
every internal run of white space replaced by one space. -/
def simplified (s : String) : String :=
  String.mk (List.intercalate [Char.ofNat 32]
    ((s.data.splitOnP isSpace).filter (fun w => !w.isEmpty)))

/-- The block kinds, as the data model of the specification lists them. -/
def specBlockKinds : List NodeType :=
  [.Document, .BlockQuote, .NumberedList, .BulletList, .TaskListItem, .ListItem,
   .CodeBlock, .HtmlBlock, .Paragraph, .Heading, .ThematicBreak, .FootnoteDefinition,
   .Table, .TableHeading, .TableRow, .TableCell]

/-- The inline kinds, as the data model of the specification lists them. -/
def specInlineKinds : List NodeType :=
  [.Text, .Softbreak, .Linebreak, .Code, .HtmlInline, .Emph, .Strong, .Link, .Image,
   .Strikethrough, .FootnoteReference]

end MarkdownNode

/-! ## The node and the heap -/

/-- The data members of the class `MarkdownNode`. A pointer to a node is an
address into the heap, `none` for `NULL`. -/
structure MarkdownNode where
  type : MarkdownNode.NodeType
  parent : Option Nat
  prev : Option Nat
  next : Option Nat
  firstChild : Option Nat
  lastChild : Option Nat
  startLine : Int
  endLine : Int
  position : Int
  length : Int
  text : String
  fenceChar : Char
  headingLevel : Int
  listStartNum : Int
  deriving Repr, DecidableEq

namespace MarkdownNode

/-- The default constructor `MarkdownNode::MarkdownNode()`. -/
def defaultNode : MarkdownNode where
  type := .Invalid
  parent := none
  prev := none
  next := none
  firstChild := none
  lastChild := none
  startLine := 0
  endLine := 0
  position := 0
  length := 0
  text := ""
  fenceChar := Char.ofNat 0
  headingLevel := 0
  listStartNum := 0

/-- The accessor `getParent`. -/
def getParent (n : MarkdownNode) : Option Nat := n.parent

/-- The accessor `getFirstChild`. -/
def getFirstChild (n : MarkdownNode) : Option Nat := n.firstChild

/-- The accessor `getLastChild`. -/
def getLastChild (n : MarkdownNode) : Option Nat := n.lastChild

/-- The accessor `getPrevious`. -/
def getPrevious (n : MarkdownNode) : Option Nat := n.prev

/-- The accessor `getNext`. -/
def getNext (n : MarkdownNode) : Option Nat := n.next

/-- The accessor `getType`. -/
def getType (n : MarkdownNode) : NodeType := n.type

/-- The accessor `getPosition`. -/
def getPosition (n : MarkdownNode) : Int := n.position

/-- The accessor `getLength`. -/
def getLength (n : MarkdownNode) : Int := n.length

/-- The accessor `getStartLine`. -/
def getStartLine (n : MarkdownNode) : Int := n.startLine

/-- The accessor `getEndLine`. -/
def getEndLine (n : MarkdownNode) : Int := n.endLine

/-- The accessor `getText`. -/
def getText (n : MarkdownNode) : String := n.text

/-- The accessor `getHeadingLevel`. -/
def getHeadingLevel (n : MarkdownNode) : Int := n.headingLevel

/-- The test `isInvalid`. -/
def isInvalid (n : MarkdownNode) : Bool := decide (NodeType.Invalid = n.type)

/-- The test `isBlockType`: the ordinal of the kind lies between
`FirstBlockType` and `LastBlockType`. -/
def isBlockType (n : MarkdownNode) : Bool :=
  decide (n.type.toInt ≥ FirstBlockType) && decide (n.type.toInt ≤ LastBlockType)

/-- The test `isInlineType`: the ordinal of the kind lies between
`FirstInlineType` and `LastInlineType`. -/
def isInlineType (n : MarkdownNode) : Bool :=
  decide (n.type.toInt ≥ FirstInlineType) && decide (n.type.toInt ≤ LastInlineType)

/-- The method `setDataFrom`, statement by statement on the fields of the
receiver. -/
def setDataFrom (self : MarkdownNode) (node : CmarkNode) : MarkdownNode :=
  let self := { self with type := getNodeType node }
  let self := { self with position := wrapInt (node.startColumn - 1) }
  let self :=
    { self with length := wrapInt (wrapInt (node.endColumn - node.startColumn) + 1) }
  let self := { self with startLine := node.startLine }
  let self := { self with endLine := node.endLine }
  let self :=
    if !self.isBlockType then { self with text := fromCString node.literal } else self
  if NodeType.CodeBlock = self.type then
    if node.fenced then { self with fenceChar := node.fenceCharacter } else self
  else if NodeType.Heading = self.type then
    let self := { self with headingLevel := node.headingLevel }
    let self := { self with text := fromCString node.stringContent }
    { self with text := simplified self.text }
  else self

/-- The test `isSetextHeading`. -/
def isSetextHeading (n : MarkdownNode) : Bool :=
  decide (NodeType.Heading = n.type)
    && decide (wrapInt (wrapInt (n.getEndLine - n.getStartLine) + 1) > 1)

/-- The test `isAtxHeading`. -/
def isAtxHeading (n : MarkdownNode) : Bool :=
  decide (NodeType.Heading = n.type) && !n.isSetextHeading

/-- The test `isFencedCodeBlock`. -/
def isFencedCodeBlock (n : MarkdownNode) : Bool := n.fenceChar != Char.ofNat 0

/-- The allocated nodes; the address of a node is its index. -/
abbrev Heap := List MarkdownNode

/-- Read through a pointer; `none` when the address is not allocated. -/
def readNode (h : Heap) (p : Nat) : Option MarkdownNode := h[p]?

/-- Write through a pointer; `none` when the address is not allocated. -/
def writeNode (h : Heap) (p : Nat) (f : MarkdownNode → MarkdownNode) : Option Heap :=
  match h[p]? with
  | none => none
  | some n => some (h.set p (f n))

/-- The method `appendChild` of the node at address `self`. -/
def appendChild (h : Heap) (self : Nat) (node : Option Nat) : Option Heap :=
  match node with
  | none => some h
  | some c => do
    let h ← writeNode h c (fun n => { n with parent := some self })
    let this ← readNode h self
    match this.firstChild with
    | none =>
      let h ← writeNode h self (fun n => { n with firstChild := some c })
      let h ← writeNode h self (fun n => { n with lastChild := some c })
      let h ← writeNode h c (fun n => { n with prev := none })
      writeNode h c (fun n => { n with next := none })
    | some _ =>
      let last ← this.lastChild
      let h ← writeNode h last (fun n => { n with next := some c })
      let this ← readNode h self
      let h ← writeNode h c (fun n => { n with prev := this.lastChild })
      let h ← writeNode h c (fun n => { n with next := none })
      writeNode h self (fun n => { n with lastChild := some c })

/-- The loop of `isInsideBlockquote`, from the pointer `parent`. -/
def isInsideBlockquoteLoop (h : Heap) : Nat → Option Nat → Option Bool
  | _, none => some false
  | 0, some _ => none
  | fuel + 1, some p =>
    match readNode h p with
    | none => none
    | some pn =>
      if NodeType.BlockQuote = pn.getType then some true
      else isInsideBlockquoteLoop h fuel pn.getParent

/-- The method `isInsideBlockquote` of the node at address `self`. -/
def isInsideBlockquote (h : Heap) (fuel : Nat) (self : Nat) : Option Bool :=
  match readNode h self with
  | none => none
  | some n => isInsideBlockquoteLoop h fuel n.getParent

/-- The test `isNumberedListItem` of the node at address `self`. -/
def isNumberedListItem (h : Heap) (self : Nat) : Option Bool :=
  match readNode h self with
  | none => none
  | some n =>
    if NodeType.ListItem = n.type then
      match n.getParent with
      | none => some false
      | some p =>
        match readNode h p with
        | none => none
        | some pn => some (decide (NodeType.NumberedList = pn.getType))
    else some false

/-- The test `isBulletListItem` of the node at address `self`. -/
def isBulletListItem (h : Heap) (self : Nat) : Option Bool :=
  match readNode h self with
  | none => none
  | some n =>
    if NodeType.ListItem = n.type then
      match n.getParent with
      | none => some false
      | some p =>
        match readNode h p with
        | none => none
        | some pn => some (decide (NodeType.BulletList = pn.getType))
    else some false

/-- The loop of `getListItemNumber`: `p` is the sibling under inspection,
`parent` the parent pointer of the receiver, `count` the running counter. -/
def getListItemNumberLoop (h : Heap) (parent : Option Nat) :
    Nat → Option Nat → Int → Option Int
  | _, none, count => some count
  | 0, some p, count => if some p = parent then some count else none
  | fuel + 1, some p, count =>
    if some p = parent then some count
    else
      match readNode h p with
      | none => none
      | some pn => getListItemNumberLoop h parent fuel pn.getPrevious (wrapInt (count + 1))

/-- The method `getListItemNumber` of the node at address `self`. -/
def getListItemNumber (h : Heap) (fuel : Nat) (self : Nat) : Option Int :=
  match readNode h self with
  | none => none
  | some n =>
    let startNum := n.listStartNum
    match getListItemNumberLoop h n.parent fuel n.prev 1 with
    | none => none
    | some count => some (wrapInt (startNum + count))

/-! ## Construction from a parser node, and the debug rendering -/

/-- The constructor `MarkdownNode::MarkdownNode(cmark_node*)`. It has no member
initialisers: the statement `MarkdownNode();` that opens its body constructs a
temporary object and discards it, it does not initialise the object under
construction. The scalar members therefore start with whatever the storage of
the object holds (`storage`), and `text` starts empty, by the default
constructor of its own class. A null `node` returns at once. -/
def nodeFromCmark (storage : MarkdownNode) (node : Option CmarkNode) : MarkdownNode :=
  let self := { storage with text := "" }
  let _temporary := defaultNode
  match node with
  | none => self
  | some nd => setDataFrom self nd

/-- The method `toString(NodeType)`: one `case` of the `switch` for each kind.
The `default` branch of the source serves values outside the enumeration. -/
def NodeType.toString : NodeType → String
  | .Invalid => "Invalid"
  | .Document => "Document"
  | .BlockQuote => "BlockQuote"
  | .NumberedList => "NumberedList"
  | .BulletList => "BulletList"
  | .TaskListItem => "TaskList"
  | .ListItem => "ListItem"
  | .CodeBlock => "CodeBlock"
  | .HtmlBlock => "HtmlBlock"
  | .Paragraph => "Paragraph"
  | .Heading => "Heading"
  | .ThematicBreak => "ThematicBreak"
  | .FootnoteDefinition => "FootnoteDefinition"
  | .Table => "Table"
  | .TableHeading => "TableHeading"
  | .TableRow => "TableRow"
  | .TableCell => "TableCell"
  | .Text => "Text"
  | .Softbreak => "Softbreak"
  | .Linebreak => "Linebreak"
  | .Code => "Code"
  | .HtmlInline => "HtmlInline"
  | .Emph => "Emph"
  | .Strong => "Strong"
  | .Link => "Link"
  | .Image => "Image"
  | .Strikethrough => "Strikethrough"
  | .FootnoteReference => "FootnoteReference"

/-- The method `QString::left`: the `n` leftmost characters, the whole string
when `n` is negative or not less than the length. A `Char` of the embedding
stands for one `QChar`. -/
def QString.left (s : String) (n : Int) : String :=
  if n < 0 ∨ n ≥ (s.length : Int) then s else String.mk (s.data.take n.toNat)

/-- The method `QString::right`: the `n` rightmost characters, the whole string
when `n` is negative or not less than the length. -/
def QString.right (s : String) (n : Int) : String :=
  if n < 0 ∨ n ≥ (s.length : Int) then s
  else String.mk (s.data.drop (s.length - n.toNat))

/-- The number of characters `toString` takes from the left of the text. -/
def toStringLeft (n : MarkdownNode) : Int :=
  let left : Int := 20
  let text := n.getText
  if left > (text.length : Int) then (text.length : Int) else left

/-- The number of characters `toString` takes from the right of the text. -/
def toStringRight (n : MarkdownNode) : Int :=
  let text := n.getText
  let right := wrapInt ((text.length : Int) - toStringLeft n)
  if right < 0 then 0 else right

/-- The last argument of the format in `toString`: the preview of the text. -/
def toStringPreview (n : MarkdownNode) : String :=
  QString.left n.getText (toStringLeft n) ++ "..." ++ QString.right n.getText (toStringRight n)

/-- The method `toString()`. Each `arg` call fills the lowest-numbered place
marker left in the format, so the six arguments land in the order written. -/
def toString (n : MarkdownNode) : String :=
  "> [lines " ++ Int.repr n.getStartLine ++ " - " ++ Int.repr n.getEndLine
    ++ "][col " ++ Int.repr n.getPosition ++ ", len " ++ Int.repr n.getLength ++ "] "
    ++ NodeType.toString n.type ++ " -> " ++ toStringPreview n

/-! ## Ancestors and sibling chains -/

/-- The node at address `a` is the parent of the node at address `c`. -/
def IsParentOf (h : Heap) (a c : Nat) : Prop :=
  ∃ n, readNode h c = some n ∧ n.parent = some a

/-- The node at address `a` is a proper ancestor of the node at address `c`:
it is reached from `c` by one or more parent links. -/
def IsProperAncestor (h : Heap) (a c : Nat) : Prop :=
  Relation.TransGen (fun x y => IsParentOf h y x) c a

/-- The parent chain from the pointer `p` is finite: following parent links
from `p` visits exactly the addresses of `l`, all allocated, and then reaches
the null pointer. Such a chain cannot run into a cycle. -/
inductive ParentChain (h : Heap) : Option Nat → List Nat → Prop where
  | root : ParentChain h none []
  | step {a : Nat} {n : MarkdownNode} {l : List Nat} :
      readNode h a = some n → ParentChain h n.parent l → ParentChain h (some a) (a :: l)

/-- The sibling chain to the left of a node: following `prev` links from the
pointer `p` visits exactly the addresses of `l`, all allocated, and then
reaches the null pointer. -/
inductive PrevChain (h : Heap) : Option Nat → List Nat → Prop where
  | first : PrevChain h none []
  | step {a : Nat} {n : MarkdownNode} {l : List Nat} :
      readNode h a = some n → PrevChain h n.prev l → PrevChain h (some a) (a :: l)

/-- The kind of the node at an address, when the address is allocated. -/
def kindAt (h : Heap) (a : Nat) : Option NodeType := (readNode h a).map (fun n => n.type)

/-- The data members that `appendChild` never assigns agree in two nodes. -/
def SameData (n m : MarkdownNode) : Prop :=
  m.type = n.type ∧ m.startLine = n.startLine ∧ m.endLine = n.endLine ∧
  m.position = n.position ∧ m.length = n.length ∧ m.text = n.text ∧
  m.fenceChar = n.fenceChar ∧ m.headingLevel = n.headingLevel ∧
  m.listStartNum = n.listStartNum

/-- A sequence of `appendChild` calls, as the builder of a tree issues them:
each pair holds the address of the receiver and the address of the child. -/
def attachAll (h : Heap) : List (Nat × Nat) → Option Heap
  | [] => some h
  | (p, c) :: ops =>
    match appendChild h p (some c) with
    | none => none
    | some h2 => attachAll h2 ops

/-- The node at address `y` is the `prev` of the node at address `x`. -/
def PrevStep (h : Heap) (x y : Nat) : Prop :=
  ∃ n, readNode h x = some n ∧ n.prev = some y

/-- The node at address `y` is the `next` of the node at address `x`. -/
def NextStep (h : Heap) (x y : Nat) : Prop :=
  ∃ n, readNode h x = some n ∧ n.next = some y

/-- Following `next` links from the pointer `p` visits exactly the addresses
of `l`, all allocated, and then reaches the null pointer. -/
inductive NextChain (h : Heap) : Option Nat → List Nat → Prop where
  | last : NextChain h none []
  | step {a : Nat} {n : MarkdownNode} {l : List Nat} :
      readNode h a = some n → NextChain h n.next l → NextChain h (some a) (a :: l)

/-- The addresses of `l` are linked in order in both directions: the `prev` of
the first is `prev`, the `prev` of every other is the address before it, the
`next` of each is the address after it, and the `next` of the last is null. -/
inductive SiblingChain (h : Heap) : Option Nat → List Nat → Prop where
  | nil {prev : Option Nat} : SiblingChain h prev []
  | cons {prev : Option Nat} {a : Nat} {n : MarkdownNode} {l : List Nat} :
      readNode h a = some n → n.prev = prev → n.next = l.head? →
      SiblingChain h (some a) l → SiblingChain h prev (a :: l)

/-- The list `cs` holds the children of the node `pn` at address `p`, in
order: it has no duplicates, it is linked in both directions, the node points
to its first and last element, and it holds exactly the nodes whose parent
pointer is `p`. -/
def ChildrenOf (h : Heap) (p : Nat) (pn : MarkdownNode) (cs : List Nat) : Prop :=
  cs.Nodup ∧ SiblingChain h none cs ∧ pn.firstChild = cs.head? ∧ pn.lastChild = cs.getLast? ∧
  ∀ (c : Nat) (n : MarkdownNode), readNode h c = some n → (n.parent = some p ↔ c ∈ cs)

/-- Sibling chain consistency of a heap: every parent pointer is allocated,
and every node has a list of children in the sense of `ChildrenOf`. -/
def SiblingsConsistent (h : Heap) : Prop :=
  (∀ (c : Nat) (n : MarkdownNode) (p : Nat), readNode h c = some n → n.parent = some p →
    ∃ pn : MarkdownNode, readNode h p = some pn) ∧
  (∀ (p : Nat) (pn : MarkdownNode), readNode h p = some pn →
    ∃ cs : List Nat, ChildrenOf h p pn cs)

/-- No node of the heap is attached: no parent, no first child, no last
child, as the default constructor leaves a node. -/
def Detached (h : Heap) : Prop :=
  ∀ (a : Nat) (n : MarkdownNode), readNode h a = some n →
    n.parent = none ∧ n.firstChild = none ∧ n.lastChild = none

/-- The list `done` holds children of the node `pn`, linked in order: it has
no duplicates, it is linked in both directions, the node points to its first
element and, when the list is not empty, to its last. -/
def ChildrenLinked (h : Heap) (pn : MarkdownNode) (done : List Nat) : Prop :=
  done.Nodup ∧ SiblingChain h none done ∧ pn.firstChild = done.head? ∧
  (done ≠ [] → pn.lastChild = done.getLast?)

/-! ## Sample inputs -/

/-- A parser node with the given tag and type string, and nothing else set. -/
def sampleCmarkNode (t : CmarkNodeType) (s : String) : CmarkNode where
  type := t
  typeString := s
  listType := .NO_LIST
  listStart := 0
  startLine := 1
  endLine := 1
  startColumn := 1
  endColumn := 1
  literal := none
  fenced := false
  fenceCharacter := Char.ofNat 0
  headingLevel := 0
  stringContent := none

/-- A node of the given kind, otherwise as the default constructor leaves it. -/
def sampleNode (k : NodeType) : MarkdownNode := { defaultNode with type := k }

/-- A node of the given kind with the given parent link, otherwise as the
default constructor leaves it. -/
def sampleChild (k : NodeType) (parent : Option Nat) : MarkdownNode :=
  { defaultNode with type := k, parent := parent }

/-- Parent links of a small document: a `Document` at address 0 holds a
`BlockQuote` (1) and a `Paragraph` (4); the block quote holds a `Paragraph` (2)
holding a `Text` (3); the outer paragraph holds a `Text` (5). -/
def quoteHeap : Heap :=
  [sampleNode NodeType.Document,
   sampleChild NodeType.BlockQuote (some 0),
   sampleChild NodeType.Paragraph (some 1),
   sampleChild NodeType.Text (some 2),
   sampleChild NodeType.Paragraph (some 0),
   sampleChild NodeType.Text (some 4)]

/-- Four detached nodes: a `NumberedList` whose `listStartNum` is 5 at address
0 and three `ListItem` nodes at addresses 1, 2 and 3. -/
def listParts : Heap :=
  [{ sampleNode NodeType.NumberedList with listStartNum := 5 },
   sampleNode NodeType.ListItem, sampleNode NodeType.ListItem, sampleNode NodeType.ListItem]

/-- The three items appended to the list in order. -/
def buildListOfThree : Option Heap :=
  ((appendChild listParts 0 (some 1)).bind (fun h => appendChild h 0 (some 2))).bind
    (fun h => appendChild h 0 (some 3))

/-- The heap `buildListOfThree` produces, written out. -/
def listOfThree : Heap :=
  [{ sampleNode NodeType.NumberedList with
      listStartNum := 5, firstChild := some 1, lastChild := some 3 },
   { sampleNode NodeType.ListItem with parent := some 0, next := some 2 },
   { sampleNode NodeType.ListItem with parent := some 0, prev := some 1, next := some 3 },
   { sampleNode NodeType.ListItem with parent := some 0, prev := some 2 }]

/-- An ordered list that the parser reports to start at number five. -/
def orderedListFromFive : CmarkNode :=
  { sampleCmarkNode CmarkNodeType.LIST "list" with
    listType := CmarkListType.ORDERED_LIST, listStart := 5 }

/-- A parser node of unknown tag and name on line 7, columns 3 to 10. -/
def spanSample : CmarkNode :=
  { sampleCmarkNode (CmarkNodeType.other 0) "unknown" with
    startLine := 7, endLine := 7, startColumn := 3, endColumn := 10 }

/-- A heading that spans the given lines. -/
def headingOnLines (s e : Int) : MarkdownNode :=
  { sampleNode NodeType.Heading with startLine := s, endLine := e }

/-- An indented code block, as the parser reports it: not fenced. -/
def indentedCodeBlock : CmarkNode :=
  { sampleCmarkNode CmarkNodeType.CODE_BLOCK "code_block" with literal := some "x = 1" }

/-- A code block fenced with the grave accent (character 96). -/
def fencedCodeBlock : CmarkNode :=
  { sampleCmarkNode CmarkNodeType.CODE_BLOCK "code_block" with
    fenced := true, fenceCharacter := Char.ofNat 96, literal := some "x = 1" }

/-- A parser node of unknown tag and name that carries a literal. -/
def unknownWithLiteral : CmarkNode :=
  { sampleCmarkNode (CmarkNodeType.other 0) "unknown" with literal := some "x" }

/-- A fenced code block with nothing in it: the literal is the empty string. -/
def emptyCodeBlock : CmarkNode :=
  { sampleCmarkNode CmarkNodeType.CODE_BLOCK "code_block" with
    fenced := true, fenceCharacter := Char.ofNat 96, literal := some "" }

/-- Storage that holds the members of some earlier paragraph node. -/
def staleStorage : MarkdownNode :=
  { sampleChild NodeType.Paragraph (some 4) with startLine := 7, endLine := 9 }

/-- A text node with a short text. -/
def shortTextNode : MarkdownNode := { sampleNode NodeType.Text with text := "abc" }

/-- A text node with a text of twenty-five characters. -/
def longTextNode : MarkdownNode :=
  { sampleNode NodeType.Text with text := "abcdefghijklmnopqrstuvwxy" }

/-- Every kind of the taxonomy: `Invalid`, the block kinds, the inline kinds. -/
def specAllKinds : List NodeType := NodeType.Invalid :: (specBlockKinds ++ specInlineKinds)

/-! ## The taxonomy -/

/-- C1: for a node of any kind exactly one of `isBlockType`, `isInlineType`
and `isInvalid` holds; the exclusive-or of the three is true, the first two
are never both true, and both are false for a node of kind `Invalid`. -/
theorem C1_block_inline_invalid_exclusive (n : MarkdownNode) :
    ((n.isBlockType = true ∧ n.isInlineType = false ∧ n.isInvalid = false) ∨
      (n.isBlockType = false ∧ n.isInlineType = true ∧ n.isInvalid = false) ∨
      (n.isBlockType = false ∧ n.isInlineType = false ∧ n.isInvalid = true)) ∧
    xor (xor n.isBlockType n.isInlineType) n.isInvalid = true ∧
    ¬ (n.isBlockType = true ∧ n.isInlineType = true) ∧
    (n.isInvalid = true ↔ n.type = NodeType.Invalid) ∧
    (sampleNode NodeType.Invalid).isBlockType = false ∧
    (sampleNode NodeType.Invalid).isInlineType = false := by
  obtain ⟨t, _, _, _, _, _, _, _, _, _, _, _, _, _⟩ := n
  cases t <;>
    simp [isBlockType, isInlineType, isInvalid, sampleNode, defaultNode, FirstBlockType,
      LastBlockType, FirstInlineType, LastInlineType, NodeType.toInt]

/-- C2: `isBlockType` is true exactly for the sixteen block kinds the
specification lists and `isInlineType` exactly for its eleven inline kinds; the
four table kinds of the extension fallback are block kinds and `Strikethrough`
is an inline kind. -/
theorem C2_block_and_inline_kinds (n : MarkdownNode) :
    n.isBlockType = decide (n.type ∈ specBlockKinds) ∧
    n.isInlineType = decide (n.type ∈ specInlineKinds) ∧
    ({ n with type := NodeType.Table }).isBlockType = true ∧
    ({ n with type := NodeType.TableRow }).isBlockType = true ∧
    ({ n with type := NodeType.TableHeading }).isBlockType = true ∧
    ({ n with type := NodeType.TableCell }).isBlockType = true ∧
    ({ n with type := NodeType.Strikethrough }).isInlineType = true ∧
    ({ n with type := NodeType.Strikethrough }).isBlockType = false := by
  obtain ⟨t, _, _, _, _, _, _, _, _, _, _, _, _, _⟩ := n
  cases t <;>
    simp [isBlockType, isInlineType, specBlockKinds, specInlineKinds, FirstBlockType,
      LastBlockType, FirstInlineType, LastInlineType, NodeType.toInt]

/-! ## Classification of parser nodes -/

/-- C3: a parser node whose tag is none of the twenty first-class tags is
classified by its type string alone: the five extension names give `Table`,
`TableRow`, `TableHeading`, `TableCell` and `Strikethrough`, every other string
gives `Invalid`. The classification is a total function, so it cannot fail. -/
theorem C3_extension_fallback (node : CmarkNode) (h : node.type.isFirstClass = false) :
    (node.typeString = "table" → getNodeType node = NodeType.Table) ∧
    (node.typeString = "table_row" → getNodeType node = NodeType.TableRow) ∧
    (node.typeString = "table_header" → getNodeType node = NodeType.TableHeading) ∧
    (node.typeString = "table_cell" → getNodeType node = NodeType.TableCell) ∧
    (node.typeString = "strikethrough" → getNodeType node = NodeType.Strikethrough) ∧
    (node.typeString ∉ ["table", "table_row", "table_header", "table_cell", "strikethrough"] →
      getNodeType node = NodeType.Invalid) := by
  obtain ⟨t, s, _, _, _, _, _, _, _, _, _, _, _⟩ := node
  cases t <;> simp [CmarkNodeType.isFirstClass] at h
  refine ⟨?_, ?_, ?_, ?_, ?_, ?_⟩
  · intro hs; simp only at hs; subst hs; simp [getNodeType]
  · intro hs; simp only at hs; subst hs; simp [getNodeType]
  · intro hs; simp only at hs; subst hs; simp [getNodeType]
  · intro hs; simp only at hs; subst hs; simp [getNodeType]
  · intro hs; simp only at hs; subst hs; simp [getNodeType]
  · intro hs
    simp only [List.mem_cons, List.mem_singleton, not_or, List.not_mem_nil, or_false] at hs
    obtain ⟨h1, h2, h3, h4, h5⟩ := hs
    simp [getNodeType, h1, h2, h3, h4, h5]

/-- C3, at an extension node named `table_row`: it is a `TableRow`, not
`Invalid`. -/
theorem C3_extension_fallback_witness :
    (sampleCmarkNode (CmarkNodeType.other 0) "table_row").type.isFirstClass = false ∧
    getNodeType (sampleCmarkNode (CmarkNodeType.other 0) "table_row") = NodeType.TableRow ∧
    getNodeType (sampleCmarkNode (CmarkNodeType.other 0) "table_row") ≠ NodeType.Invalid :=
  have h := (C3_extension_fallback (sampleCmarkNode (CmarkNodeType.other 0) "table_row")
    rfl).2.1 rfl
  ⟨rfl, h, by rw [h]; decide⟩

/-- C4: a parser node with the list tag is a `NumberedList` when the parser
reports an ordered list, a `BulletList` when it reports a bullet list, and
`Invalid` for any other list style; the type string plays no part. -/
theorem C4_list_dispatch (node : CmarkNode) (h : node.type = CmarkNodeType.LIST) :
    (node.listType = CmarkListType.ORDERED_LIST → getNodeType node = NodeType.NumberedList) ∧
    (node.listType = CmarkListType.BULLET_LIST → getNodeType node = NodeType.BulletList) ∧
    (node.listType ≠ CmarkListType.ORDERED_LIST → node.listType ≠ CmarkListType.BULLET_LIST →
      getNodeType node = NodeType.Invalid) ∧
    (∀ s : String, getNodeType { node with typeString := s } = getNodeType node) := by
  obtain ⟨t, s, lt, _, _, _, _, _, _, _, _, _, _⟩ := node
  simp only at h
  subst h
  cases lt <;> simp [getNodeType]

/-- C4, at an ordered list whose type string is `table`: a `NumberedList`. -/
theorem C4_list_dispatch_witness :
    getNodeType { sampleCmarkNode CmarkNodeType.LIST "table" with
      listType := CmarkListType.ORDERED_LIST } = NodeType.NumberedList :=
  (C4_list_dispatch { sampleCmarkNode CmarkNodeType.LIST "table" with
    listType := CmarkListType.ORDERED_LIST } rfl).1 rfl

/-- C5: a parser node with the item tag is a `TaskListItem` exactly when its
type string is `tasklist` and a `ListItem` for every other type string; no
third kind is possible. -/
theorem C5_item_dispatch (node : CmarkNode) (h : node.type = CmarkNodeType.ITEM) :
    (getNodeType node = NodeType.TaskListItem ↔ node.typeString = "tasklist") ∧
    (getNodeType node = NodeType.ListItem ↔ node.typeString ≠ "tasklist") ∧
    (getNodeType node = NodeType.TaskListItem ∨ getNodeType node = NodeType.ListItem) := by
  obtain ⟨t, s, _, _, _, _, _, _, _, _, _, _, _⟩ := node
  simp only at h
  subst h
  by_cases hs : s = "tasklist" <;> simp [getNodeType, hs]

/-- C5, at an item named `tasklist` and at an item named `item`. -/
theorem C5_item_dispatch_witness :
    getNodeType (sampleCmarkNode CmarkNodeType.ITEM "tasklist") = NodeType.TaskListItem ∧
    getNodeType (sampleCmarkNode CmarkNodeType.ITEM "item") = NodeType.ListItem :=
  ⟨(C5_item_dispatch (sampleCmarkNode CmarkNodeType.ITEM "tasklist") rfl).1.2 rfl,
   (C5_item_dispatch (sampleCmarkNode CmarkNodeType.ITEM "item") rfl).2.1.2 (by decide)⟩

/-! ## Machine integers, continued -/

/-- An `int` in range is left alone by the wrap. -/
theorem wrapInt_of_isInt {x : Int} (h : IsInt x) : wrapInt x = x := by
  unfold IsInt at h
  unfold wrapInt
  omega

/-! ## List numbering -/

/-- The loop of `getListItemNumber` on a finite sibling chain that does not
meet the parent pointer: the counter grows by the length of the chain. -/
theorem getListItemNumberLoop_of_chain {h : Heap} {parent p : Option Nat} {l : List Nat}
    (hc : PrevChain h p l) (hp : ∀ a ∈ l, some a ≠ parent) :
    ∀ (fuel : Nat) (count : Int), l.length ≤ fuel → -2147483648 ≤ count →
      count + l.length ≤ 2147483647 →
      getListItemNumberLoop h parent fuel p count = some (count + l.length) := by
  induction hc with
  | first =>
    intro fuel count _ _ _
    cases fuel <;> simp [getListItemNumberLoop]
  | @step a n l hr _ ih =>
    intro fuel count hf hlo hhi
    have hne : some a ≠ parent := hp a (List.mem_cons_self a l)
    have hp2 : ∀ b ∈ l, some b ≠ parent := fun b hb => hp b (List.mem_cons_of_mem a hb)
    simp only [List.length_cons, Nat.cast_add, Nat.cast_one] at hf hhi
    cases fuel with
    | zero => omega
    | succ f =>
      have hw : wrapInt (count + 1) = count + 1 :=
        wrapInt_of_isInt (by unfold IsInt; omega)
      simp only [getListItemNumberLoop, hne, if_false, hr, getPrevious, hw]
      rw [ih hp2 f (count + 1) (by omega) (by omega) (by omega)]
      simp only [List.length_cons, Nat.cast_add, Nat.cast_one]
      congr 1
      omega

/-- What `getListItemNumber` computes on a finite sibling chain: the
`listStartNum` of the receiver itself, plus one, plus the number of `prev`
links from the receiver to the first child. -/
theorem getListItemNumber_of_chain {h : Heap} {self : Nat} {n : MarkdownNode} {l : List Nat}
    (hn : readNode h self = some n) (hc : PrevChain h n.prev l)
    (hp : ∀ a ∈ l, some a ≠ n.parent) (hl : (l.length : Int) < 2147483647)
    (fuel : Nat) (hf : l.length ≤ fuel) :
    getListItemNumber h fuel self = some (wrapInt (n.listStartNum + (1 + l.length))) := by
  simp only [getListItemNumber, hn]
  rw [getListItemNumberLoop_of_chain hc hp fuel 1 hf (by omega) (by omega)]

/-- C6, evaluated on a `NumberedList` whose `listStartNum` is 5 with three
`ListItem` children appended in order: `getListItemNumber` answers 1, 2 and 3
for the three items, not 5, 6 and 7, because it starts from the
`listStartNum` of the item itself (0) and counts from one. -/
theorem C6_list_item_number_on_list_from_five :
    buildListOfThree = some listOfThree ∧
    (readNode listOfThree 0).map (fun n => n.listStartNum) = some 5 ∧
    kindAt listOfThree 0 = some NodeType.NumberedList ∧
    getListItemNumber listOfThree 3 1 = some 1 ∧
    getListItemNumber listOfThree 3 2 = some 2 ∧
    getListItemNumber listOfThree 3 3 = some 3 := by
  refine ⟨by decide, by decide, by decide, by decide, by decide, by decide⟩

/-! ## Copying the parser's data -/

/-- The kind `setDataFrom` stores is the classification of the parser node. -/
theorem setDataFrom_type (self : MarkdownNode) (node : CmarkNode) :
    (setDataFrom self node).type = getNodeType node := by
  unfold setDataFrom
  simp only
  split_ifs <;> rfl

/-- The position `setDataFrom` stores. -/
theorem setDataFrom_position (self : MarkdownNode) (node : CmarkNode) :
    (setDataFrom self node).position = wrapInt (node.startColumn - 1) := by
  unfold setDataFrom
  simp only
  split_ifs <;> rfl

/-- The length `setDataFrom` stores. -/
theorem setDataFrom_length (self : MarkdownNode) (node : CmarkNode) :
    (setDataFrom self node).length
      = wrapInt (wrapInt (node.endColumn - node.startColumn) + 1) := by
  unfold setDataFrom
  simp only
  split_ifs <;> rfl

/-- The start line `setDataFrom` stores. -/
theorem setDataFrom_startLine (self : MarkdownNode) (node : CmarkNode) :
    (setDataFrom self node).startLine = node.startLine := by
  unfold setDataFrom
  simp only
  split_ifs <;> rfl

/-- The end line `setDataFrom` stores. -/
theorem setDataFrom_endLine (self : MarkdownNode) (node : CmarkNode) :
    (setDataFrom self node).endLine = node.endLine := by
  unfold setDataFrom
  simp only
  split_ifs <;> rfl

/-- No statement of `setDataFrom` assigns `listStartNum`. -/
theorem setDataFrom_listStartNum (self : MarkdownNode) (node : CmarkNode) :
    (setDataFrom self node).listStartNum = self.listStartNum := by
  unfold setDataFrom
  simp only
  split_ifs <;> rfl

/-- C7, evaluated on an ordered list the parser reports to start at five: the
node is classified as a `NumberedList`, and after the default constructor and
`setDataFrom` its `listStartNum` is still the default 0, not 5. -/
theorem C7_list_start_not_recorded :
    getNodeType orderedListFromFive = NodeType.NumberedList ∧
    orderedListFromFive.listStart = 5 ∧
    (setDataFrom defaultNode orderedListFromFive).type = NodeType.NumberedList ∧
    (setDataFrom defaultNode orderedListFromFive).listStartNum = 0 := by
  refine ⟨rfl, rfl, ?_, ?_⟩
  · rw [setDataFrom_type]; rfl
  · rw [setDataFrom_listStartNum]; rfl

/-- C8: for a parser node whose columns are 1-based `int`s, `setDataFrom`
stores the reported start and end line, the position `sc - 1` and the length
`ec - sc + 1` exactly, so that position plus length is the end column; the
kind of the node plays no part. -/
theorem C8_source_span (self : MarkdownNode) (node : CmarkNode)
    (hsc : IsInt node.startColumn) (hec : IsInt node.endColumn)
    (hsc1 : 1 ≤ node.startColumn) (hec1 : 1 ≤ node.endColumn) :
    (setDataFrom self node).getStartLine = node.startLine ∧
    (setDataFrom self node).getEndLine = node.endLine ∧
    (setDataFrom self node).getPosition = node.startColumn - 1 ∧
    (setDataFrom self node).getLength = node.endColumn - node.startColumn + 1 ∧
    (setDataFrom self node).getPosition + (setDataFrom self node).getLength
      = node.endColumn := by
  have hp : wrapInt (node.startColumn - 1) = node.startColumn - 1 :=
    wrapInt_of_isInt (by unfold IsInt at *; omega)
  have hd : wrapInt (node.endColumn - node.startColumn) = node.endColumn - node.startColumn :=
    wrapInt_of_isInt (by unfold IsInt at *; omega)
  have hl : wrapInt (node.endColumn - node.startColumn + 1)
      = node.endColumn - node.startColumn + 1 :=
    wrapInt_of_isInt (by unfold IsInt at *; omega)
  refine ⟨?_, ?_, ?_, ?_, ?_⟩ <;>
    simp only [getStartLine, getEndLine, getPosition, getLength, setDataFrom_startLine,
      setDataFrom_endLine, setDataFrom_position, setDataFrom_length, hp, hd, hl]
  omega

/-- C8, at a node of kind `Invalid` on line 7, columns 3 to 10: position 2 and
length 8. -/
theorem C8_source_span_witness :
    (setDataFrom defaultNode spanSample).type = NodeType.Invalid ∧
    (setDataFrom defaultNode spanSample).getStartLine = 7 ∧
    (setDataFrom defaultNode spanSample).getEndLine = 7 ∧
    (setDataFrom defaultNode spanSample).getPosition = 2 ∧
    (setDataFrom defaultNode spanSample).getLength = 8 :=
  have h := C8_source_span defaultNode spanSample (by decide) (by decide) (by decide)
    (by decide)
  ⟨by rw [setDataFrom_type]; rfl, h.1, h.2.1, h.2.2.1, h.2.2.2.1⟩

/-! ## Heading style -/

/-- C9: for a node whose line numbers are non-negative `int`s spanning fewer
than 2147483647 lines, `isSetextHeading` holds exactly when the kind is
`Heading` and the end line is after the start line, and `isAtxHeading` exactly
when the kind is `Heading` and `isSetextHeading` is false; so exactly one of
the two holds for a heading and neither for any other kind. -/
theorem C9_heading_style (n : MarkdownNode)
    (hs : IsInt n.startLine) (he : IsInt n.endLine)
    (hs0 : 0 ≤ n.startLine) (he0 : 0 ≤ n.endLine)
    (hspan : n.endLine - n.startLine < 2147483647) :
    (n.isSetextHeading = true ↔ n.type = NodeType.Heading ∧ n.endLine > n.startLine) ∧
    (n.isAtxHeading = true ↔ n.type = NodeType.Heading ∧ n.isSetextHeading = false) ∧
    (n.type = NodeType.Heading →
      (n.isSetextHeading = true ∧ n.isAtxHeading = false) ∨
      (n.isSetextHeading = false ∧ n.isAtxHeading = true)) ∧
    (n.type ≠ NodeType.Heading → n.isSetextHeading = false ∧ n.isAtxHeading = false) := by
  have hd : wrapInt (n.endLine - n.startLine) = n.endLine - n.startLine :=
    wrapInt_of_isInt (by unfold IsInt at *; omega)
  have hl : wrapInt (n.endLine - n.startLine + 1) = n.endLine - n.startLine + 1 :=
    wrapInt_of_isInt (by unfold IsInt at *; omega)
  have hset : n.isSetextHeading = true ↔ n.type = NodeType.Heading ∧ n.endLine > n.startLine := by
    simp only [isSetextHeading, getEndLine, getStartLine, hd, hl, Bool.and_eq_true,
      decide_eq_true_eq]
    constructor
    · rintro ⟨h1, h2⟩; exact ⟨h1.symm, by omega⟩
    · rintro ⟨h1, h2⟩; exact ⟨h1.symm, by omega⟩
  have hatx : n.isAtxHeading = true ↔ n.type = NodeType.Heading ∧ n.isSetextHeading = false := by
    simp only [isAtxHeading, Bool.and_eq_true, decide_eq_true_eq, Bool.not_eq_true']
    constructor
    · rintro ⟨h1, h2⟩; exact ⟨h1.symm, h2⟩
    · rintro ⟨h1, h2⟩; exact ⟨h1.symm, h2⟩
  refine ⟨hset, hatx, ?_, ?_⟩
  · intro hk
    cases hb : n.isSetextHeading
    · right; exact ⟨rfl, hatx.2 ⟨hk, hb⟩⟩
    · left
      refine ⟨rfl, ?_⟩
      cases ha : n.isAtxHeading
      · rfl
      · have := (hatx.1 ha).2
        rw [hb] at this
        cases this
  · intro hk
    constructor
    · cases hb : n.isSetextHeading
      · rfl
      · exact absurd (hset.1 hb).1 hk
    · cases ha : n.isAtxHeading
      · rfl
      · exact absurd (hatx.1 ha).1 hk

/-- C9, at a heading on lines 3 to 3 (ATX, not setext) and at a heading on
lines 3 to 4 (setext, not ATX). -/
theorem C9_heading_style_witness :
    ((headingOnLines 3 3).isAtxHeading = true ∧ (headingOnLines 3 3).isSetextHeading = false) ∧
    ((headingOnLines 3 4).isAtxHeading = false ∧ (headingOnLines 3 4).isSetextHeading = true) :=
  have h33 := C9_heading_style (headingOnLines 3 3) (by decide) (by decide) (by decide)
    (by decide) (by decide)
  have h34 := C9_heading_style (headingOnLines 3 4) (by decide) (by decide) (by decide)
    (by decide) (by decide)
  have s33 : (headingOnLines 3 3).isSetextHeading = false := by
    cases hb : (headingOnLines 3 3).isSetextHeading
    · rfl
    · exact absurd (h33.1.1 hb).2 (by decide)
  have s34 : (headingOnLines 3 4).isSetextHeading = true := h34.1.2 ⟨rfl, by decide⟩
  have a34 : (headingOnLines 3 4).isAtxHeading = false := by
    cases ha : (headingOnLines 3 4).isAtxHeading
    · rfl
    · have := (h34.2.1.1 ha).2
      rw [s34] at this
      cases this
  ⟨⟨h33.2.1.2 ⟨rfl, s33⟩, s33⟩, ⟨a34, s34⟩⟩

/-! ## Blockquote containment -/

/-- The loop of `isInsideBlockquote` stops at the null pointer with `false`,
whatever the fuel. -/
theorem isInsideBlockquoteLoop_null (h : Heap) (fuel : Nat) :
    isInsideBlockquoteLoop h fuel none = some false := by
  cases fuel <;> rfl

/-- On a finite parent chain the loop of `isInsideBlockquote` returns, and
tells whether some address of the chain holds a `BlockQuote`. -/
theorem isInsideBlockquoteLoop_of_chain {h : Heap} {p : Option Nat} {l : List Nat}
    (hc : ParentChain h p l) :
    ∀ fuel : Nat, l.length ≤ fuel →
      isInsideBlockquoteLoop h fuel p
        = some (l.any (fun a => decide (kindAt h a = some NodeType.BlockQuote))) := by
  induction hc with
  | root =>
    intro fuel _
    simp [isInsideBlockquoteLoop_null]
  | @step a n l hr _ ih =>
    intro fuel hf
    simp only [List.length_cons] at hf
    cases fuel with
    | zero => omega
    | succ f =>
      have hk : kindAt h a = some n.type := by simp [kindAt, hr]
      simp only [isInsideBlockquoteLoop, hr, getType, getParent, List.any_cons, hk]
      by_cases hq : NodeType.BlockQuote = n.type
      · simp [hq]
      · have hq2 : ¬ n.type = NodeType.BlockQuote := fun e => hq e.symm
        simp only [hq, if_false, Option.some.injEq, hq2, decide_False, Bool.false_or]
        exact ih f (by omega)

/-- On a finite parent chain the proper ancestors of a node are exactly the
addresses of the chain that starts at its parent pointer. -/
theorem isProperAncestor_iff_mem {h : Heap} {p : Option Nat} {l : List Nat}
    (hc : ParentChain h p l) :
    ∀ (c : Nat) (n : MarkdownNode), readNode h c = some n → n.parent = p →
      ∀ a : Nat, IsProperAncestor h a c ↔ a ∈ l := by
  induction hc with
  | root =>
    intro c n hn hp a
    constructor
    · intro ha
      unfold IsProperAncestor at ha
      rw [Relation.TransGen.head'_iff] at ha
      obtain ⟨b, ⟨m, hm, hmp⟩, _⟩ := ha
      rw [hn] at hm
      cases hm
      rw [hp] at hmp
      cases hmp
    · intro ha
      cases ha
  | @step x nx l hr _ ih =>
    intro c n hn hp a
    have hstep : ∀ b : Nat, IsParentOf h b c ↔ b = x := by
      intro b
      constructor
      · rintro ⟨m, hm, hmp⟩
        rw [hn] at hm
        cases hm
        rw [hp] at hmp
        cases hmp
        rfl
      · rintro rfl
        exact ⟨n, hn, hp⟩
    constructor
    · intro ha
      unfold IsProperAncestor at ha
      rw [Relation.TransGen.head'_iff] at ha
      obtain ⟨b, hb, hrest⟩ := ha
      have hbx : b = x := (hstep b).1 hb
      subst hbx
      rcases Relation.reflTransGen_iff_eq_or_transGen.1 hrest with heq | htg
      · rw [heq]
        exact List.mem_cons_self _ _
      · exact List.mem_cons_of_mem _ ((ih b nx hr rfl a).1 htg)
    · intro ha
      rcases List.mem_cons.1 ha with heq | hmem
      · subst heq
        exact Relation.TransGen.single ((hstep a).2 rfl)
      · exact Relation.TransGen.head ((hstep x).2 rfl) ((ih x nx hr rfl a).2 hmem)

/-- C10: for a node whose parent chain is finite, `isInsideBlockquote` returns
once the fuel covers the chain, and it returns true exactly when some proper
ancestor of the node has kind `BlockQuote`; the kind of the node itself is not
read, and a node without parent gives false. -/
theorem C10_inside_blockquote (h : Heap) (self : Nat) (n : MarkdownNode) (l : List Nat)
    (hn : readNode h self = some n) (hc : ParentChain h n.parent l) :
    (∀ fuel : Nat, l.length ≤ fuel →
      ∃ b : Bool, isInsideBlockquote h fuel self = some b ∧
        (b = true ↔
          ∃ a : Nat, IsProperAncestor h a self ∧ kindAt h a = some NodeType.BlockQuote)) ∧
    (n.parent = none → ∀ fuel : Nat, isInsideBlockquote h fuel self = some false) := by
  constructor
  · intro fuel hf
    refine ⟨l.any (fun a => decide (kindAt h a = some NodeType.BlockQuote)), ?_, ?_⟩
    · simp only [isInsideBlockquote, hn, getParent]
      exact isInsideBlockquoteLoop_of_chain hc fuel hf
    · rw [List.any_eq_true]
      constructor
      · rintro ⟨a, hal, hk⟩
        exact ⟨a, (isProperAncestor_iff_mem hc self n hn rfl a).2 hal, of_decide_eq_true hk⟩
      · rintro ⟨a, haa, hk⟩
        exact ⟨a, (isProperAncestor_iff_mem hc self n hn rfl a).1 haa, decide_eq_true hk⟩
  · intro hp fuel
    simp only [isInsideBlockquote, hn, getParent, hp]
    exact isInsideBlockquoteLoop_null h fuel

/-- C10, in the sample document: the `Text` under `BlockQuote` and `Paragraph`
is inside a block quote and has a `BlockQuote` ancestor; the `Text` under the
outer paragraph is not and has none; the `BlockQuote` itself, whose only
ancestor is the document, is not; the root is not. -/
theorem C10_inside_blockquote_witness :
    (isInsideBlockquote quoteHeap 3 3 = some true ∧
      ∃ a : Nat, IsProperAncestor quoteHeap a 3 ∧
        kindAt quoteHeap a = some NodeType.BlockQuote) ∧
    (isInsideBlockquote quoteHeap 2 5 = some false ∧
      ¬ ∃ a : Nat, IsProperAncestor quoteHeap a 5 ∧
        kindAt quoteHeap a = some NodeType.BlockQuote) ∧
    isInsideBlockquote quoteHeap 1 1 = some false ∧
    isInsideBlockquote quoteHeap 0 0 = some false := by
  have c0 : ParentChain quoteHeap (some 0) [0] :=
    ParentChain.step (n := sampleNode NodeType.Document) rfl ParentChain.root
  have c1 : ParentChain quoteHeap (some 1) [1, 0] :=
    ParentChain.step (n := sampleChild NodeType.BlockQuote (some 0)) rfl c0
  have c2 : ParentChain quoteHeap (some 2) [2, 1, 0] :=
    ParentChain.step (n := sampleChild NodeType.Paragraph (some 1)) rfl c1
  have c4 : ParentChain quoteHeap (some 4) [4, 0] :=
    ParentChain.step (n := sampleChild NodeType.Paragraph (some 0)) rfl c0
  have t3 := C10_inside_blockquote quoteHeap 3 (sampleChild NodeType.Text (some 2)) [2, 1, 0]
    rfl c2
  have t5 := C10_inside_blockquote quoteHeap 5 (sampleChild NodeType.Text (some 4)) [4, 0]
    rfl c4
  have t0 := C10_inside_blockquote quoteHeap 0 (sampleNode NodeType.Document) [] rfl
    ParentChain.root
  have e3 : isInsideBlockquote quoteHeap 3 3 = some true := by decide
  have e5 : isInsideBlockquote quoteHeap 2 5 = some false := by decide
  refine ⟨⟨e3, ?_⟩, ⟨e5, ?_⟩, by decide, t0.2 rfl 0⟩
  · obtain ⟨b, hb, hiff⟩ := t3.1 3 (by decide)
    rw [e3] at hb
    cases hb
    exact hiff.1 rfl
  · obtain ⟨b, hb, hiff⟩ := t5.1 2 (by decide)
    rw [e5] at hb
    cases hb
    intro hex
    exact absurd (hiff.2 hex) (by decide)

/-! ## Fenced code blocks -/

/-- The fence character after `setDataFrom`: the parser's, for a code block
the parser reports as fenced; otherwise the one the receiver had. -/
theorem setDataFrom_fenceChar (self : MarkdownNode) (node : CmarkNode) :
    (setDataFrom self node).fenceChar
      = if getNodeType node = NodeType.CodeBlock ∧ node.fenced = true
        then node.fenceCharacter else self.fenceChar := by
  unfold setDataFrom
  dsimp only
  split_ifs with h1 <;> dsimp only at * <;>
    first
    | rfl
    | (exfalso; clear h1; simp_all)

/-- C11: for a node built by the default constructor and `setDataFrom`,
`isFencedCodeBlock` is true exactly when the kind is `CodeBlock` and the parser
reports the block as fenced with a fence character other than NUL; the node
then holds that fence character; a node of any other kind is never a fenced
code block. -/
theorem C11_fenced_code_block (node : CmarkNode) :
    ((setDataFrom defaultNode node).isFencedCodeBlock = true ↔
      (setDataFrom defaultNode node).type = NodeType.CodeBlock ∧ node.fenced = true ∧
        node.fenceCharacter ≠ Char.ofNat 0) ∧
    ((setDataFrom defaultNode node).isFencedCodeBlock = true →
      (setDataFrom defaultNode node).fenceChar = node.fenceCharacter) ∧
    ((setDataFrom defaultNode node).type ≠ NodeType.CodeBlock →
      (setDataFrom defaultNode node).isFencedCodeBlock = false) := by
  simp only [isFencedCodeBlock, setDataFrom_fenceChar, setDataFrom_type]
  by_cases hk : getNodeType node = NodeType.CodeBlock
  · by_cases hf : node.fenced = true
    · simp [hk, hf]
    · simp [hk, hf, defaultNode]
  · simp [hk, defaultNode]

/-- C11, at an indented code block (not fenced) and at a code block fenced with
the grave accent (fenced, and the fence character is the grave accent). -/
theorem C11_fenced_code_block_witness :
    ((setDataFrom defaultNode indentedCodeBlock).type = NodeType.CodeBlock ∧
      (setDataFrom defaultNode indentedCodeBlock).isFencedCodeBlock = false) ∧
    ((setDataFrom defaultNode fencedCodeBlock).type = NodeType.CodeBlock ∧
      (setDataFrom defaultNode fencedCodeBlock).isFencedCodeBlock = true ∧
      (setDataFrom defaultNode fencedCodeBlock).fenceChar = Char.ofNat 96) := by
  have hi := C11_fenced_code_block indentedCodeBlock
  have hf := C11_fenced_code_block fencedCodeBlock
  have ti : (setDataFrom defaultNode indentedCodeBlock).type = NodeType.CodeBlock := by
    rw [setDataFrom_type]; rfl
  have tf : (setDataFrom defaultNode fencedCodeBlock).type = NodeType.CodeBlock := by
    rw [setDataFrom_type]; rfl
  have ff : (setDataFrom defaultNode fencedCodeBlock).isFencedCodeBlock = true :=
    hf.1.2 ⟨tf, rfl, by decide⟩
  refine ⟨⟨ti, ?_⟩, ⟨tf, ff, hf.2.1 ff⟩⟩
  cases hb : (setDataFrom defaultNode indentedCodeBlock).isFencedCodeBlock
  · rfl
  · exact absurd (hi.1.1 hb).2.1 (by decide)

/-! ## List items -/

/-- C12: `isNumberedListItem` (`isBulletListItem`) returns, and returns true
exactly when the kind is `ListItem`, the node has a parent and the kind of the
parent is `NumberedList` (`BulletList`); the two are never both true, both are
false for a `TaskListItem` whatever its parent, and both are false for a
`ListItem` without parent. -/
theorem C12_list_item_predicates (h : Heap) (self : Nat) (n : MarkdownNode)
    (hn : readNode h self = some n)
    (hp : ∀ p : Nat, n.parent = some p → ∃ pn : MarkdownNode, readNode h p = some pn) :
    (∃ b : Bool, isNumberedListItem h self = some b ∧
      (b = true ↔ n.type = NodeType.ListItem ∧
        ∃ p : Nat, n.parent = some p ∧ kindAt h p = some NodeType.NumberedList)) ∧
    (∃ b : Bool, isBulletListItem h self = some b ∧
      (b = true ↔ n.type = NodeType.ListItem ∧
        ∃ p : Nat, n.parent = some p ∧ kindAt h p = some NodeType.BulletList)) ∧
    ¬ (isNumberedListItem h self = some true ∧ isBulletListItem h self = some true) ∧
    (n.type = NodeType.TaskListItem →
      isNumberedListItem h self = some false ∧ isBulletListItem h self = some false) ∧
    (n.type = NodeType.ListItem → n.parent = none →
      isNumberedListItem h self = some false ∧ isBulletListItem h self = some false) := by
  by_cases hk : NodeType.ListItem = n.type
  · cases hpar : n.parent with
    | none =>
      simp [isNumberedListItem, isBulletListItem, hn, hk, getParent, hpar]
    | some p =>
      obtain ⟨pn, hpn⟩ := hp p hpar
      have hk2 : n.type = NodeType.ListItem := hk.symm
      by_cases h1 : NodeType.NumberedList = pn.type
      · have h1s : pn.type = NodeType.NumberedList := h1.symm
        simp [isNumberedListItem, isBulletListItem, hn, hk2, getParent, hpar, hpn, getType,
          kindAt, h1s]
      · have h1s : ¬ pn.type = NodeType.NumberedList := fun e => h1 e.symm
        by_cases h2 : NodeType.BulletList = pn.type
        · have h2s : pn.type = NodeType.BulletList := h2.symm
          simp [isNumberedListItem, isBulletListItem, hn, hk2, getParent, hpar, hpn, getType,
            kindAt, h2s]
        · have h2s : ¬ pn.type = NodeType.BulletList := fun e => h2 e.symm
          simp [isNumberedListItem, isBulletListItem, hn, hk2, getParent, hpar, hpn, getType,
            kindAt, h1, h2, h1s, h2s]
  · have hk2 : ¬ n.type = NodeType.ListItem := fun e => hk e.symm
    simp [isNumberedListItem, isBulletListItem, hn, hk, hk2]

/-- C12, in the list of three items: the second item is a numbered list item
and not a bullet list item; the list node itself is neither. -/
theorem C12_list_item_predicates_witness :
    (isNumberedListItem listOfThree 2 = some true ∧
      isBulletListItem listOfThree 2 = some false) ∧
    (isNumberedListItem listOfThree 0 = some false ∧
      isBulletListItem listOfThree 0 = some false) := by
  have h2 := C12_list_item_predicates listOfThree 2
    { sampleNode NodeType.ListItem with parent := some 0, prev := some 1, next := some 3 } rfl
    (fun p hp => by
      have h0 : p = 0 := by simpa using hp.symm
      subst h0
      exact ⟨_, rfl⟩)
  obtain ⟨b, hb, hiff⟩ := h2.1
  have hb2 : b = true := hiff.2 ⟨rfl, 0, rfl, rfl⟩
  subst hb2
  refine ⟨⟨hb, by decide⟩, by decide, by decide⟩

/-! ## Construction from a null parser node -/

/-- The constructor from a parser node, given a null pointer, leaves every
scalar member as the storage held it. -/
theorem nodeFromCmark_null (storage : MarkdownNode) :
    nodeFromCmark storage none = { storage with text := "" } := rfl

/-- C15, evaluated on a null parser node and storage that held an earlier
paragraph: the constructed node is not the sentinel; it is a `Paragraph` with
a parent pointer and lines 7 to 9, and `isInvalid` is false. -/
theorem C15_null_node_not_sentinel :
    (nodeFromCmark staleStorage none).isInvalid = false ∧
    (nodeFromCmark staleStorage none).type = NodeType.Paragraph ∧
    (nodeFromCmark staleStorage none).parent = some 4 ∧
    (nodeFromCmark staleStorage none).startLine = 7 ∧
    (nodeFromCmark staleStorage none).endLine = 9 ∧
    nodeFromCmark staleStorage none ≠ defaultNode := by
  refine ⟨by decide, rfl, rfl, rfl, rfl, ?_⟩
  intro h
  have ht : (nodeFromCmark staleStorage none).type = defaultNode.type := by rw [h]
  exact absurd ht (by decide)

/-! ## Classification of the first-class tags -/

/-- C16: a parser node with one of the eighteen first-class tags other than
list and item is classified as the kind of the same name, whatever its type
string; a paragraph whose type string is `table` is a `Paragraph`. -/
theorem C16_primary_dispatch (node : CmarkNode) (s : String) :
    getNodeType { node with type := CmarkNodeType.DOCUMENT, typeString := s }
      = NodeType.Document ∧
    getNodeType { node with type := CmarkNodeType.BLOCK_QUOTE, typeString := s }
      = NodeType.BlockQuote ∧
    getNodeType { node with type := CmarkNodeType.CODE_BLOCK, typeString := s }
      = NodeType.CodeBlock ∧
    getNodeType { node with type := CmarkNodeType.HTML_BLOCK, typeString := s }
      = NodeType.HtmlBlock ∧
    getNodeType { node with type := CmarkNodeType.PARAGRAPH, typeString := s }
      = NodeType.Paragraph ∧
    getNodeType { node with type := CmarkNodeType.HEADING, typeString := s }
      = NodeType.Heading ∧
    getNodeType { node with type := CmarkNodeType.THEMATIC_BREAK, typeString := s }
      = NodeType.ThematicBreak ∧
    getNodeType { node with type := CmarkNodeType.FOOTNOTE_DEFINITION, typeString := s }
      = NodeType.FootnoteDefinition ∧
    getNodeType { node with type := CmarkNodeType.TEXT, typeString := s }
      = NodeType.Text ∧
    getNodeType { node with type := CmarkNodeType.SOFTBREAK, typeString := s }
      = NodeType.Softbreak ∧
    getNodeType { node with type := CmarkNodeType.LINEBREAK, typeString := s }
      = NodeType.Linebreak ∧
    getNodeType { node with type := CmarkNodeType.CODE, typeString := s }
      = NodeType.Code ∧
    getNodeType { node with type := CmarkNodeType.HTML_INLINE, typeString := s }
      = NodeType.HtmlInline ∧
    getNodeType { node with type := CmarkNodeType.EMPH, typeString := s }
      = NodeType.Emph ∧
    getNodeType { node with type := CmarkNodeType.STRONG, typeString := s }
      = NodeType.Strong ∧
    getNodeType { node with type := CmarkNodeType.LINK, typeString := s }
      = NodeType.Link ∧
    getNodeType { node with type := CmarkNodeType.IMAGE, typeString := s }
      = NodeType.Image ∧
    getNodeType { node with type := CmarkNodeType.FOOTNOTE_REFERENCE, typeString := s }
      = NodeType.FootnoteReference ∧
    getNodeType (sampleCmarkNode CmarkNodeType.PARAGRAPH "table") = NodeType.Paragraph := by
  refine ⟨rfl, rfl, rfl, rfl, rfl, rfl, rfl, rfl, rfl, rfl, rfl, rfl, rfl, rfl, rfl, rfl,
    rfl, rfl, rfl⟩

/-! ## The text of a node -/

/-- The text after the default constructor and `setDataFrom`, by the kind of
the node. -/
theorem setDataFrom_text (node : CmarkNode) :
    (setDataFrom defaultNode node).text
      = if getNodeType node = NodeType.Heading then simplified (fromCString node.stringContent)
        else if (sampleNode (getNodeType node)).isBlockType = true then ""
        else fromCString node.literal := by
  unfold setDataFrom
  cases hk : getNodeType node <;>
    simp [hk, isBlockType, sampleNode, defaultNode, FirstBlockType, LastBlockType,
      NodeType.toInt]
  split_ifs <;> rfl

/-- C17 as stated fails on a parser node of unknown tag and name with literal
`x`: the node is `Invalid`, which is not an inline kind, and yet its text is
the literal, not the empty string. It also fails, in the other direction of
its "if and only if", on an empty code block: the text equals the literal,
both empty, and the kind is not inline. -/
theorem C17_counterexample :
    (setDataFrom defaultNode unknownWithLiteral).type = NodeType.Invalid ∧
    (setDataFrom defaultNode unknownWithLiteral).text = "x" ∧
    ((setDataFrom defaultNode emptyCodeBlock).type = NodeType.CodeBlock ∧
      (setDataFrom defaultNode emptyCodeBlock).text = fromCString emptyCodeBlock.literal ∧
      (setDataFrom defaultNode emptyCodeBlock).isInlineType = false) ∧
    ¬ (((setDataFrom defaultNode unknownWithLiteral).text
          = fromCString unknownWithLiteral.literal ↔
        (setDataFrom defaultNode unknownWithLiteral).isInlineType = true) ∧
      ((setDataFrom defaultNode unknownWithLiteral).isInlineType = false →
        (setDataFrom defaultNode unknownWithLiteral).type ≠ NodeType.Heading →
        (setDataFrom defaultNode unknownWithLiteral).text = "")) := by
  have ht : (setDataFrom defaultNode unknownWithLiteral).type = NodeType.Invalid := by
    rw [setDataFrom_type]; rfl
  have hx : (setDataFrom defaultNode unknownWithLiteral).text = "x" := by
    rw [setDataFrom_text]; rfl
  have hi : (setDataFrom defaultNode unknownWithLiteral).isInlineType = false := by
    simp [isInlineType, ht, FirstInlineType, LastInlineType, NodeType.toInt]
  have hct : (setDataFrom defaultNode emptyCodeBlock).type = NodeType.CodeBlock := by
    rw [setDataFrom_type]; rfl
  have hcx : (setDataFrom defaultNode emptyCodeBlock).text
      = fromCString emptyCodeBlock.literal := by
    rw [setDataFrom_text]; rfl
  have hci : (setDataFrom defaultNode emptyCodeBlock).isInlineType = false := by
    simp [isInlineType, hct, FirstInlineType, LastInlineType, NodeType.toInt]
  refine ⟨ht, hx, ⟨hct, hcx, hci⟩, ?_⟩
  rintro ⟨_, h2⟩
  have he := h2 hi (by rw [ht]; decide)
  rw [hx] at he
  exact absurd he (by decide)

/-- C17, amended: after the default constructor and `setDataFrom` the text is
the parser's literal, verbatim, for every kind that is not a block kind (the
inline kinds and `Invalid`); it is the whitespace-normalised string content
for a `Heading`; it is empty for every other block kind. -/
theorem C17_text_by_kind (node : CmarkNode) :
    ((setDataFrom defaultNode node).isBlockType = false →
      (setDataFrom defaultNode node).text = fromCString node.literal) ∧
    ((setDataFrom defaultNode node).isInlineType = true →
      (setDataFrom defaultNode node).text = fromCString node.literal) ∧
    ((setDataFrom defaultNode node).type = NodeType.Invalid →
      (setDataFrom defaultNode node).text = fromCString node.literal) ∧
    ((setDataFrom defaultNode node).type = NodeType.Heading →
      (setDataFrom defaultNode node).text = simplified (fromCString node.stringContent)) ∧
    ((setDataFrom defaultNode node).isBlockType = true →
      (setDataFrom defaultNode node).type ≠ NodeType.Heading →
      (setDataFrom defaultNode node).text = "") := by
  have ht := setDataFrom_type defaultNode node
  have hx := setDataFrom_text node
  simp only [isBlockType, isInlineType, ht, hx]
  cases hk : getNodeType node <;>
    simp [isBlockType, sampleNode, defaultNode, FirstBlockType, LastBlockType,
      FirstInlineType, LastInlineType, NodeType.toInt]

/-! ## Debug rendering -/

/-- The number of characters taken from the left is the smaller of 20 and the
length of the text. -/
theorem toStringLeft_eq (n : MarkdownNode) :
    toStringLeft n = ((min 20 n.text.length : Nat) : Int) := by
  unfold toStringLeft getText
  dsimp only
  split_ifs with h <;> omega

/-- The number of characters taken from the right is what the text has beyond
its first 20 characters. -/
theorem toStringRight_eq (n : MarkdownNode) (hl : n.text.length ≤ 2147483647) :
    toStringRight n = ((n.text.length - 20 : Nat) : Int) := by
  unfold toStringRight
  rw [toStringLeft_eq]
  dsimp only [getText]
  have hw : wrapInt ((n.text.length : Int) - ((min 20 n.text.length : Nat) : Int))
      = (n.text.length : Int) - ((min 20 n.text.length : Nat) : Int) :=
    wrapInt_of_isInt (by unfold IsInt; omega)
  rw [hw]
  split_ifs with h <;> omega

/-- The characters of `QString::left` for a count that is not negative. -/
theorem QString_left_data (s : String) (k : Nat) :
    (QString.left s (k : Int)).data = s.data.take k := by
  unfold QString.left
  have hlen : s.length = s.data.length := rfl
  split_ifs with h
  · rcases h with h | h
    · omega
    · rw [List.take_of_length_le]
      omega
  · simp

/-- The characters of `QString::right` for a count that is not negative. -/
theorem QString_right_data (s : String) (k : Nat) :
    (QString.right s (k : Int)).data = s.data.drop (s.data.length - k) := by
  unfold QString.right
  have hlen : s.length = s.data.length := rfl
  split_ifs with h
  · rcases h with h | h
    · omega
    · have : s.data.length - k = 0 := by omega
      rw [this, List.drop_zero]
  · have hk : ((k : Int)).toNat = k := Int.toNat_ofNat k
    rw [hk]
    rfl

/-- C18: for a text of `n` characters (`n` an `int`), the preview that
`toString` puts after the arrow is the first `min 20 n` characters, three
dots, and the last `n - 20` characters (none when `n` is at most 20): head and
tail together have `n` characters, the preview has `n + 3`, removing the dots
gives the text back, and for `n` at most 20 the preview is the text followed
by the dots. -/
theorem C18_preview (n : MarkdownNode) (hl : n.text.length ≤ 2147483647) :
    (toStringPreview n).data
      = n.text.data.take (min 20 n.text.length) ++ "...".data
        ++ n.text.data.drop (n.text.length - (n.text.length - 20)) ∧
    min 20 n.text.length + (n.text.length - 20) = n.text.length ∧
    (toStringPreview n).length = n.text.length + 3 ∧
    (toStringPreview n).data.take (min 20 n.text.length)
        ++ (toStringPreview n).data.drop (min 20 n.text.length + 3) = n.text.data ∧
    (n.text.length ≤ 20 → toStringPreview n = n.text ++ "...") ∧
    (∃ pre : String, n.toString = pre ++ " -> " ++ toStringPreview n) := by
  have hlen : n.text.length = n.text.data.length := rfl
  have hd : (toStringPreview n).data
      = n.text.data.take (min 20 n.text.length) ++ "...".data
        ++ n.text.data.drop (n.text.length - (n.text.length - 20)) := by
    unfold toStringPreview
    rw [toStringLeft_eq, toStringRight_eq n hl]
    simp only [String.data_append, getText, QString_left_data, QString_right_data, hlen]
  have hk : n.text.length - (n.text.length - 20) = min 20 n.text.length := by omega
  have htl : (n.text.data.take (min 20 n.text.length)).length = min 20 n.text.length := by
    rw [List.length_take]; omega
  refine ⟨hd, by omega, ?_, ?_, ?_, ?_⟩
  · show (toStringPreview n).data.length = _
    rw [hd, hk]
    simp only [List.length_append, List.length_take, List.length_drop, List.length_cons,
      List.length_nil]
    omega
  · rw [hd, hk, List.append_assoc]
    rw [List.take_left' htl]
    rw [show min 20 n.text.length + 3
        = (n.text.data.take (min 20 n.text.length)).length + "...".data.length from by
      rw [htl]; rfl]
    rw [← List.append_assoc, List.drop_left' (by rw [List.length_append])]
    exact List.take_append_drop _ _
  · intro h20
    apply String.ext
    rw [hd, String.data_append]
    have h1 : min 20 n.text.length = n.text.data.length := by omega
    have h2 : n.text.length - (n.text.length - 20) = n.text.data.length := by omega
    rw [h1, h2, List.take_length, List.drop_length, List.append_nil]
  · exact ⟨_, rfl⟩

/-- C18, at a text of three characters and at a text of twenty-five. -/
theorem C18_preview_witness :
    (toStringPreview shortTextNode = "abc..." ∧
      (toStringPreview shortTextNode).length = 6) ∧
    (toStringPreview longTextNode = "abcdefghijklmnopqrst...uvwxy" ∧
      (toStringPreview longTextNode).length = 28) ∧
    longTextNode.toString = "> [lines 0 - 0][col 0, len 0] Text -> abcdefghijklmnopqrst...uvwxy" :=
  have hs := C18_preview shortTextNode (by decide)
  have hg := C18_preview longTextNode (by decide)
  ⟨⟨hs.2.2.2.2.1 (by decide), hs.2.2.1⟩, ⟨by decide, hg.2.2.1⟩, by decide⟩

/-- The kind names are pairwise distinct. -/
theorem toString_injective (a b : NodeType) (h : NodeType.toString a = NodeType.toString b) :
    a = b := by
  cases a <;> cases b <;>
    first
    | rfl
    | exact absurd h (by decide)

/-- C19: the twenty-eight kinds of the taxonomy are all the kinds there are,
each has the name its own `case` of `toString(NodeType)` gives it, the names
are pairwise distinct, and so the name of the kind `getNodeType` returns
determines that kind. -/
theorem C19_kind_names :
    (∀ k : NodeType, k ∈ specAllKinds) ∧
    specAllKinds.length = 28 ∧
    specAllKinds.map NodeType.toString
      = ["Invalid", "Document", "BlockQuote", "NumberedList", "BulletList", "TaskList",
         "ListItem", "CodeBlock", "HtmlBlock", "Paragraph", "Heading", "ThematicBreak",
         "FootnoteDefinition", "Table", "TableHeading", "TableRow", "TableCell", "Text",
         "Softbreak", "Linebreak", "Code", "HtmlInline", "Emph", "Strong", "Link", "Image",
         "Strikethrough", "FootnoteReference"] ∧
    (specAllKinds.map NodeType.toString).Nodup ∧
    (∀ a b : NodeType, a ≠ b → NodeType.toString a ≠ NodeType.toString b) ∧
    (∀ x y : CmarkNode,
      NodeType.toString (getNodeType x) = NodeType.toString (getNodeType y) →
        getNodeType x = getNodeType y) := by
  refine ⟨?_, rfl, rfl, by decide, ?_, ?_⟩
  · intro k
    cases k <;> decide
  · intro a b hab hs
    exact hab (toString_injective a b hs)
  · intro x y hs
    exact toString_injective _ _ hs

/-! ## Blockquote containment is inherited -/

/-- The parent chain of a node on a finite parent chain is finite too, and it
is a part of that chain. -/
theorem parentChain_of_mem {h : Heap} {q : Option Nat} {l : List Nat}
    (hc : ParentChain h q l) :
    ∀ (a : Nat) (an : MarkdownNode), a ∈ l → readNode h a = some an →
      ∃ l2 : List Nat, ParentChain h an.parent l2 ∧ (∀ x ∈ l2, x ∈ l) ∧
        l2.length ≤ l.length := by
  induction hc with
  | root =>
    intro a an ha _
    cases ha
  | @step x nx l hr hc2 ih =>
    intro a an ha han
    rcases List.mem_cons.1 ha with heq | hmem
    · subst heq
      rw [hr] at han
      cases han
      exact ⟨l, hc2, fun y hy => List.mem_cons_of_mem _ hy, by simp⟩
    · obtain ⟨l2, h1, h2, h3⟩ := ih a an hmem han
      exact ⟨l2, h1, fun y hy => List.mem_cons_of_mem _ (h2 y hy), by
        simp only [List.length_cons]; omega⟩

/-- What `isInsideBlockquote` returns on a finite parent chain. -/
theorem isInsideBlockquote_of_chain {h : Heap} {self : Nat} {n : MarkdownNode} {l : List Nat}
    (hn : readNode h self = some n) (hc : ParentChain h n.parent l) (fuel : Nat)
    (hf : l.length ≤ fuel) :
    isInsideBlockquote h fuel self
      = some (l.any (fun a => decide (kindAt h a = some NodeType.BlockQuote))) := by
  simp only [isInsideBlockquote, hn, getParent]
  exact isInsideBlockquoteLoop_of_chain hc fuel hf

/-- C20: for a node with parent `p` on a finite parent chain,
`isInsideBlockquote` of the node is the disjunction of "`p` is a `BlockQuote`"
and `isInsideBlockquote` of `p`; a direct child of a `BlockQuote` is inside a
block quote; and when the node is inside a block quote, so is every node that
has it as a proper ancestor. -/
theorem C20_inside_blockquote_inherited (h : Heap) (self p : Nat) (n pn : MarkdownNode)
    (l : List Nat) (hn : readNode h self = some n) (hpar : n.parent = some p)
    (hp : readNode h p = some pn) (hc : ParentChain h pn.parent l) :
    (∀ fuel : Nat, l.length + 1 ≤ fuel →
      ∃ b bp : Bool, isInsideBlockquote h fuel self = some b ∧
        isInsideBlockquote h fuel p = some bp ∧
        b = (decide (pn.type = NodeType.BlockQuote) || bp)) ∧
    (pn.type = NodeType.BlockQuote →
      ∀ fuel : Nat, 1 ≤ fuel → isInsideBlockquote h fuel self = some true) ∧
    (∀ (d : Nat) (dn : MarkdownNode) (ld : List Nat), readNode h d = some dn →
      ParentChain h dn.parent ld → IsProperAncestor h self d →
      ∀ fuel : Nat, ld.length ≤ fuel → isInsideBlockquote h fuel self = some true →
        isInsideBlockquote h fuel d = some true) := by
  have hcs : ParentChain h n.parent (p :: l) := by
    rw [hpar]
    exact ParentChain.step hp hc
  have hkp : kindAt h p = some pn.type := by simp [kindAt, hp]
  refine ⟨?_, ?_, ?_⟩
  · intro fuel hf
    refine ⟨_, _, isInsideBlockquote_of_chain hn hcs fuel (by simpa using hf),
      isInsideBlockquote_of_chain hp hc fuel (by omega), ?_⟩
    simp [List.any_cons, hkp]
  · intro hk fuel hf
    cases fuel with
    | zero => omega
    | succ f =>
      simp [isInsideBlockquote, hn, getParent, hpar, isInsideBlockquoteLoop, hp, getType, hk]
  · intro d dn ld hd hcd hanc fuel hf hin
    have hmem : self ∈ ld := (isProperAncestor_iff_mem hcd d dn hd rfl self).1 hanc
    obtain ⟨l2, hc2, hsub, hlen⟩ := parentChain_of_mem hcd self n hmem hn
    rw [isInsideBlockquote_of_chain hn hc2 fuel (by omega)] at hin
    rw [isInsideBlockquote_of_chain hd hcd fuel hf]
    have hany : l2.any (fun a => decide (kindAt h a = some NodeType.BlockQuote)) = true := by
      simpa using hin
    rw [List.any_eq_true] at hany
    obtain ⟨x, hx, hxk⟩ := hany
    congr 1
    rw [List.any_eq_true]
    exact ⟨x, hsub x hx, hxk⟩

/-- C20, in the sample document: the `Text` at address 3 has the `Paragraph`
at address 2 as parent, which is not a `BlockQuote` but is inside one, so the
text is inside one; the paragraph is a direct child of the `BlockQuote`. -/
theorem C20_inside_blockquote_inherited_witness :
    (isInsideBlockquote quoteHeap 3 3 = some true ∧
      isInsideBlockquote quoteHeap 3 2 = some true) ∧
    isInsideBlockquote quoteHeap 1 2 = some true := by
  have c0 : ParentChain quoteHeap (some 0) [0] :=
    ParentChain.step (n := sampleNode NodeType.Document) rfl ParentChain.root
  have c1 : ParentChain quoteHeap (some 1) [1, 0] :=
    ParentChain.step (n := sampleChild NodeType.BlockQuote (some 0)) rfl c0
  have t3 := C20_inside_blockquote_inherited quoteHeap 3 2
    (sampleChild NodeType.Text (some 2)) (sampleChild NodeType.Paragraph (some 1)) [1, 0]
    rfl rfl rfl c1
  have t2 := C20_inside_blockquote_inherited quoteHeap 2 1
    (sampleChild NodeType.Paragraph (some 1)) (sampleChild NodeType.BlockQuote (some 0)) [0]
    rfl rfl rfl c0
  have e2 : isInsideBlockquote quoteHeap 3 2 = some true := by decide
  obtain ⟨b, bp, hb, hbp, hor⟩ := t3.1 3 (by decide)
  rw [e2] at hbp
  cases hbp
  rw [Bool.or_true] at hor
  subst hor
  exact ⟨⟨hb, e2⟩, t2.2.1 rfl 1 (by decide)⟩

/-! ## Appending a child -/

/-- A pointer that can be read is an address of the heap. -/
theorem readNode_lt {h : Heap} {a : Nat} {n : MarkdownNode} (hr : readNode h a = some n) :
    a < h.length := by
  unfold readNode at hr
  by_contra hlt
  rw [List.getElem?_eq_none (by omega)] at hr
  cases hr

/-- A write through an allocated pointer succeeds, keeps the size of the heap,
and changes the node at that address only. -/
theorem writeNode_spec {h : Heap} {a : Nat} {n : MarkdownNode} (f : MarkdownNode → MarkdownNode)
    (hr : readNode h a = some n) :
    ∃ h2 : Heap, writeNode h a f = some h2 ∧ h2.length = h.length ∧
      ∀ b : Nat, readNode h2 b = (readNode h b).map (fun x => if b = a then f x else x) := by
  have hlt := readNode_lt hr
  refine ⟨h.set a (f n), ?_, by simp, ?_⟩
  · unfold writeNode
    unfold readNode at hr
    rw [hr]
  · intro b
    by_cases hab : a = b
    · subst hab
      rw [hr]
      unfold readNode
      rw [List.getElem?_set]
      simp [hlt]
    · have hba : ¬ b = a := fun e => hab e.symm
      unfold readNode
      rw [List.getElem?_set]
      simp [hab, hba]

/-- The effect of `appendChild` on every node of the heap, for a receiver `p`
whose last child, when it has a first child, is allocated: the call succeeds,
allocates nothing, and assigns the five links as stated. -/
theorem appendChild_effect {h : Heap} {p c : Nat} {pn cn : MarkdownNode}
    (hp : readNode h p = some pn) (hc : readNode h c = some cn)
    (hlast : pn.firstChild ≠ none →
      ∃ (l : Nat) (ln : MarkdownNode), pn.lastChild = some l ∧ readNode h l = some ln) :
    ∃ h2 : Heap, appendChild h p (some c) = some h2 ∧ h2.length = h.length ∧
      ∀ (b : Nat) (n : MarkdownNode), readNode h b = some n →
        ∃ m : MarkdownNode, readNode h2 b = some m ∧ SameData n m ∧
          m.parent = (if b = c then some p else n.parent) ∧
          m.prev = (if b = c then (if pn.firstChild = none then none else pn.lastChild)
                    else n.prev) ∧
          m.next = (if b = c then none
                    else if pn.firstChild ≠ none ∧ pn.lastChild = some b then some c
                    else n.next) ∧
          m.firstChild = (if b = p ∧ pn.firstChild = none then some c else n.firstChild) ∧
          m.lastChild = (if b = p then some c else n.lastChild) := by
  obtain ⟨h1, w1, l1, r1⟩ := writeNode_spec (fun n => { n with parent := some p }) hc
  have ht1 : ∃ t1 : MarkdownNode, readNode h1 p = some t1 ∧ t1.firstChild = pn.firstChild ∧
      t1.lastChild = pn.lastChild := by
    rw [r1, hp]
    by_cases hpc : p = c <;> simp [hpc]
  obtain ⟨t1, ht1, hf1, hl1⟩ := ht1
  have hc1 : ∃ c1 : MarkdownNode, readNode h1 c = some c1 := by
    rw [r1, hc]; exact ⟨_, rfl⟩
  obtain ⟨c1, hc1⟩ := hc1
  cases hfc : pn.firstChild with
  | none =>
    obtain ⟨h2, w2, l2, r2⟩ := writeNode_spec (fun n => { n with firstChild := some c }) ht1
    have ht2 : ∃ t2 : MarkdownNode, readNode h2 p = some t2 := by
      rw [r2, ht1]; exact ⟨_, rfl⟩
    obtain ⟨t2, ht2⟩ := ht2
    obtain ⟨h3, w3, l3, r3⟩ := writeNode_spec (fun n => { n with lastChild := some c }) ht2
    have hc3 : ∃ c3 : MarkdownNode, readNode h3 c = some c3 := by
      rw [r3, r2, hc1]; exact ⟨_, rfl⟩
    obtain ⟨c3, hc3⟩ := hc3
    obtain ⟨h4, w4, l4, r4⟩ := writeNode_spec (fun n => { n with prev := none }) hc3
    have hc4 : ∃ c4 : MarkdownNode, readNode h4 c = some c4 := by
      rw [r4, hc3]; exact ⟨_, rfl⟩
    obtain ⟨c4, hc4⟩ := hc4
    obtain ⟨h5, w5, l5, r5⟩ := writeNode_spec (fun n => { n with next := none }) hc4
    refine ⟨h5, ?_, by omega, ?_⟩
    · have hf1n : t1.firstChild = none := by rw [hf1, hfc]
      simp only [appendChild, w1, Option.bind_eq_bind, Option.some_bind, ht1, hf1n, w2, w3, w4,
        w5]
    · intro b n hb
      refine ⟨_, by rw [r5, r4, r3, r2, r1, hb]; rfl, ?_⟩
      rcases eq_or_ne b c with rfl | hbc <;> rcases eq_or_ne b p with rfl | hbp <;>
        simp [SameData, hfc, *]
  | some f =>
    obtain ⟨l, ln, hl, hln⟩ := hlast (by rw [hfc]; simp)
    have hln1 : ∃ x : MarkdownNode, readNode h1 l = some x := by
      rw [r1, hln]; exact ⟨_, rfl⟩
    obtain ⟨ln1, hln1⟩ := hln1
    obtain ⟨h2, w2, l2, r2⟩ := writeNode_spec (fun n => { n with next := some c }) hln1
    have ht2 : ∃ t2 : MarkdownNode, readNode h2 p = some t2 ∧ t2.lastChild = some l := by
      rw [r2, ht1]
      by_cases hpl : p = l <;> simp [hpl, hl1, hl]
    obtain ⟨t2, ht2, hl2⟩ := ht2
    have hc2 : ∃ x : MarkdownNode, readNode h2 c = some x := by
      rw [r2, hc1]; exact ⟨_, rfl⟩
    obtain ⟨c2, hc2⟩ := hc2
    obtain ⟨h3, w3, l3, r3⟩ := writeNode_spec (fun n => { n with prev := t2.lastChild }) hc2
    have hc3 : ∃ x : MarkdownNode, readNode h3 c = some x := by
      rw [r3, hc2]; exact ⟨_, rfl⟩
    obtain ⟨c3, hc3⟩ := hc3
    obtain ⟨h4, w4, l4, r4⟩ := writeNode_spec (fun n => { n with next := none }) hc3
    have ht4 : ∃ x : MarkdownNode, readNode h4 p = some x := by
      rw [r4, r3, ht2]; exact ⟨_, rfl⟩
    obtain ⟨t4, ht4⟩ := ht4
    obtain ⟨h5, w5, l5, r5⟩ := writeNode_spec (fun n => { n with lastChild := some c }) ht4
    refine ⟨h5, ?_, by omega, ?_⟩
    · have hf1n : t1.firstChild = some f := by rw [hf1, hfc]
      have hl1n : t1.lastChild = some l := by rw [hl1, hl]
      simp only [appendChild, w1, Option.bind_eq_bind, Option.some_bind, ht1, hf1n, hl1n, w2,
        ht2, w3, w4, w5]
    · intro b n hb
      refine ⟨_, by rw [r5, r4, r3, r2, r1, hb]; rfl, ?_⟩
      rcases eq_or_ne b c with rfl | hbc <;> rcases eq_or_ne b p with rfl | hbp <;>
        rcases eq_or_ne b l with rfl | hbl <;>
        simp [SameData, hfc, hl2, hl, *] <;>
        rw [if_neg (fun e => ‹b ≠ l› e.symm)]

/-! ## Sibling chains -/

/-- Heaps of the same size have the same allocated addresses. -/
theorem readNode_of_length_eq {h h2 : Heap} (hl : h2.length = h.length) {b : Nat}
    {m : MarkdownNode} (hm : readNode h2 b = some m) :
    ∃ n : MarkdownNode, readNode h b = some n := by
  have hlt := readNode_lt hm
  rw [hl] at hlt
  exact ⟨h[b], by unfold readNode; exact List.getElem?_eq_getElem hlt⟩

/-- Every address of a sibling chain is allocated. -/
theorem siblingChain_read {h : Heap} {prev : Option Nat} {l : List Nat}
    (hc : SiblingChain h prev l) :
    ∀ b : Nat, b ∈ l → ∃ n : MarkdownNode, readNode h b = some n := by
  induction hc with
  | nil => intro b hb; cases hb
  | @cons prev a n l hr _ _ _ ih =>
    intro b hb
    rcases List.mem_cons.1 hb with rfl | hmem
    · exact ⟨n, hr⟩
    · exact ih b hmem

/-- A sibling chain survives a change of the heap that keeps the `prev` and
`next` of its nodes. -/
theorem siblingChain_frame {h h2 : Heap} {prev : Option Nat} {l : List Nat}
    (hc : SiblingChain h prev l) :
    (∀ b : Nat, b ∈ l → ∀ n : MarkdownNode, readNode h b = some n →
      ∃ m : MarkdownNode, readNode h2 b = some m ∧ m.prev = n.prev ∧ m.next = n.next) →
    SiblingChain h2 prev l := by
  induction hc with
  | nil => intro _; exact SiblingChain.nil
  | @cons prev a n l hr hp hn _ ih =>
    intro hstep
    obtain ⟨m, hm, hmp, hmn⟩ := hstep a (List.mem_cons_self a l) n hr
    exact SiblingChain.cons hm (by rw [hmp, hp]) (by rw [hmn, hn])
      (ih (fun b hb n hbn => hstep b (List.mem_cons_of_mem a hb) n hbn))

/-- Appending to a sibling chain: when the last node of the chain gets the new
node as `next`, the new node gets the last node as `prev` and null as `next`,
and the other links stay, the chain grows by the new node. -/
theorem siblingChain_snoc {h h2 : Heap} {c : Nat} {prev : Option Nat} {l : List Nat}
    (hc : SiblingChain h prev l) :
    c ∉ l → l.Nodup →
    (∀ b : Nat, b ∈ l → ∀ n : MarkdownNode, readNode h b = some n →
      ∃ m : MarkdownNode, readNode h2 b = some m ∧ m.prev = n.prev ∧
        m.next = if l.getLast? = some b then some c else n.next) →
    (∃ m : MarkdownNode, readNode h2 c = some m ∧
      m.prev = (if l = [] then prev else l.getLast?) ∧ m.next = none) →
    SiblingChain h2 prev (l ++ [c]) := by
  induction hc with
  | nil =>
    intro _ _ _ hcn
    obtain ⟨m, hm, hmp, hmn⟩ := hcn
    exact SiblingChain.cons hm (by simpa using hmp) (by simpa using hmn) SiblingChain.nil
  | @cons prev a n l hr hp hn _ ih =>
    intro hcl hnd hstep hcn
    have hca : c ∉ l := fun hx => hcl (List.mem_cons_of_mem a hx)
    have hal : a ∉ l := (List.nodup_cons.1 hnd).1
    have hnd2 : l.Nodup := (List.nodup_cons.1 hnd).2
    obtain ⟨m, hm, hmp, hmn⟩ := hstep a (List.mem_cons_self a l) n hr
    cases l with
    | nil =>
      obtain ⟨mc, hmc, hmcp, hmcn⟩ := hcn
      refine SiblingChain.cons hm (by rw [hmp, hp]) (by simpa using hmn) ?_
      exact SiblingChain.cons hmc (by simpa using hmcp) (by simpa using hmcn) SiblingChain.nil
    | cons x l2 =>
      have hax : a ≠ x := fun e => hal (by rw [e]; exact List.mem_cons_self x l2)
      have hlast : (a :: x :: l2).getLast? = (x :: l2).getLast? := List.getLast?_cons_cons
      refine SiblingChain.cons hm (by rw [hmp, hp]) ?_ ?_
      · have hne : (a :: x :: l2).getLast? ≠ some a := by
          rw [hlast]
          intro e
          exact hal (List.mem_of_getLast?_eq_some e)
        rw [hmn, if_neg hne, hn]
        rfl
      · apply ih hca hnd2
        · intro b hb nb hnb
          obtain ⟨mb, hmb, hmbp, hmbn⟩ := hstep b (List.mem_cons_of_mem a hb) nb hnb
          exact ⟨mb, hmb, hmbp, by rw [hmbn, hlast]⟩
        · obtain ⟨mc, hmc, hmcp, hmcn⟩ := hcn
          refine ⟨mc, hmc, ?_, hmcn⟩
          rw [hmcp, hlast]
          simp

/-- A read determines the node. -/
theorem readNode_unique {h : Heap} {b : Nat} {n m : MarkdownNode}
    (hn : readNode h b = some n) (hm : readNode h b = some m) : n = m := by
  rw [hn] at hm
  exact Option.some.inj hm

/-- Appending a detached node keeps the heap consistent; it allocates nothing
and leaves the parent pointer of every other node alone. -/
theorem appendChild_preserves {h : Heap} {p c : Nat} {pn cn : MarkdownNode}
    (hinv : SiblingsConsistent h) (hp : readNode h p = some pn) (hc : readNode h c = some cn)
    (hdet : cn.parent = none) :
    ∃ h2 : Heap, appendChild h p (some c) = some h2 ∧ SiblingsConsistent h2 ∧
      h2.length = h.length ∧
      ∀ (b : Nat) (n : MarkdownNode), b ≠ c → readNode h b = some n →
        ∃ m : MarkdownNode, readNode h2 b = some m ∧ m.parent = n.parent := by
  obtain ⟨hI1, hI2⟩ := hinv
  obtain ⟨cs, hnd, hch, hfirst, hlastc, hmem⟩ := hI2 p pn hp
  have hccs : c ∉ cs := by
    intro hx
    have := (hmem c cn hc).2 hx
    rw [hdet] at this
    cases this
  have hempty : pn.firstChild = none ↔ cs = [] := by
    rw [hfirst]
    cases cs <;> simp
  have hlast : pn.firstChild ≠ none →
      ∃ (l : Nat) (ln : MarkdownNode), pn.lastChild = some l ∧ readNode h l = some ln := by
    intro hne
    cases hgl : cs.getLast? with
    | none =>
      exact absurd (hempty.2 (List.getLast?_eq_none_iff.1 hgl)) hne
    | some l =>
      obtain ⟨ln, hln⟩ := siblingChain_read hch l (List.mem_of_getLast?_eq_some hgl)
      exact ⟨l, ln, by rw [hlastc, hgl], hln⟩
  obtain ⟨h2, happ, hlen, heff⟩ := appendChild_effect hp hc hlast
  refine ⟨h2, happ, ⟨?_, ?_⟩, hlen, ?_⟩
  · intro b m q hbm hq
    obtain ⟨n, hn⟩ := readNode_of_length_eq hlen hbm
    obtain ⟨m2, hm2, _, hpar, _⟩ := heff b n hn
    have hmm : m2 = m := readNode_unique hm2 hbm
    subst hmm
    have hq2 : ∃ qn : MarkdownNode, readNode h q = some qn := by
      by_cases hbc : b = c
      · rw [hpar, if_pos hbc] at hq
        cases hq
        exact ⟨pn, hp⟩
      · rw [hpar, if_neg hbc] at hq
        exact hI1 b n q hn hq
    obtain ⟨qn, hqn⟩ := hq2
    obtain ⟨qm, hqm, _⟩ := heff q qn hqn
    exact ⟨qm, hqm⟩
  · intro q qm hq
    obtain ⟨qn, hqn⟩ := readNode_of_length_eq hlen hq
    obtain ⟨qm2, hqm2, _, _, _, _, hqf, hql⟩ := heff q qn hqn
    have hmm : qm2 = qm := readNode_unique hqm2 hq
    subst hmm
    by_cases hqp : q = p
    · subst hqp
      have hpq : qn = pn := readNode_unique hqn hp
      subst hpq
      refine ⟨cs ++ [c], ?_, ?_, ?_, ?_, ?_⟩
      · rw [List.nodup_append]
        refine ⟨hnd, List.nodup_singleton c, ?_⟩
        intro x hx hxc
        rw [List.mem_singleton] at hxc
        subst hxc
        exact hccs hx
      · apply siblingChain_snoc hch hccs hnd
        · intro b hb n hn
          have hbc : b ≠ c := fun e => hccs (by rw [← e]; exact hb)
          obtain ⟨m, hm, _, _, hmp, hmn, _⟩ := heff b n hn
          refine ⟨m, hm, by rw [hmp, if_neg hbc], ?_⟩
          rw [hmn, if_neg hbc]
          have hne : qn.firstChild ≠ none := by
            intro e
            rw [hempty.1 e] at hb
            cases hb
          by_cases hl : cs.getLast? = some b
          · rw [if_pos hl, if_pos ⟨hne, by rw [hlastc, hl]⟩]
          · rw [if_neg hl, if_neg (fun hx => hl (by rw [← hlastc]; exact hx.2))]
        · obtain ⟨m, hm, _, _, hmp, hmn, _⟩ := heff c cn hc
          refine ⟨m, hm, ?_, by rw [hmn, if_pos rfl]⟩
          rw [hmp, if_pos rfl]
          by_cases he : cs = []
          · rw [if_pos he, if_pos (hempty.2 he)]
          · rw [if_neg he, if_neg (fun hx => he (hempty.1 hx)), hlastc]
      · rw [hqf]
        by_cases he : cs = []
        · rw [if_pos ⟨rfl, hempty.2 he⟩, he]
          rfl
        · rw [if_neg (fun hx => he (hempty.1 hx.2)), hfirst]
          cases cs with
          | nil => exact absurd rfl he
          | cons x l => rfl
      · rw [hql, if_pos rfl]
        simp
      · intro b m hbm
        obtain ⟨n, hn⟩ := readNode_of_length_eq hlen hbm
        obtain ⟨m2, hm2, _, hpar, _⟩ := heff b n hn
        have hmm : m2 = m := readNode_unique hm2 hbm
        subst hmm
        rw [hpar, List.mem_append, List.mem_singleton]
        by_cases hbc : b = c
        · simp [hbc]
        · rw [if_neg hbc, hmem b n hn]
          simp [hbc]
    · obtain ⟨csq, hndq, hchq, hfq, hlq, hmemq⟩ := hI2 q qn hqn
      have hcq : c ∉ csq := by
        intro hx
        have := (hmemq c cn hc).2 hx
        rw [hdet] at this
        cases this
      refine ⟨csq, hndq, ?_, ?_, ?_, ?_⟩
      · apply siblingChain_frame hchq
        intro b hb n hn
        have hbc : b ≠ c := fun e => hcq (by rw [← e]; exact hb)
        obtain ⟨m, hm, _, _, hmp, hmn, _⟩ := heff b n hn
        refine ⟨m, hm, by rw [hmp, if_neg hbc], ?_⟩
        rw [hmn, if_neg hbc]
        have hnl : ¬ (pn.firstChild ≠ none ∧ pn.lastChild = some b) := by
          rintro ⟨_, hx⟩
          rw [hlastc] at hx
          have hbcs : b ∈ cs := List.mem_of_getLast?_eq_some hx
          have h1 := (hmem b n hn).2 hbcs
          have h2 := (hmemq b n hn).2 hb
          rw [h1] at h2
          exact hqp (Option.some.inj h2).symm
        rw [if_neg hnl]
      · rw [hqf, if_neg (fun hx => hqp hx.1), hfq]
      · rw [hql, if_neg hqp, hlq]
      · intro b m hbm
        obtain ⟨n, hn⟩ := readNode_of_length_eq hlen hbm
        obtain ⟨m2, hm2, _, hpar, _⟩ := heff b n hn
        have hmm : m2 = m := readNode_unique hm2 hbm
        subst hmm
        rw [hpar]
        by_cases hbc : b = c
        · rw [if_pos hbc]
          constructor
          · intro e
            exact absurd (Option.some.inj e).symm hqp
          · intro hx
            rw [hbc] at hx
            exact absurd hx hcq
        · rw [if_neg hbc]
          exact hmemq b n hn
  · intro b n hbc hn
    obtain ⟨m, hm, _, hpar, _⟩ := heff b n hn
    exact ⟨m, hm, by rw [hpar, if_neg hbc]⟩

/-- A heap of detached nodes is consistent: every list of children is empty. -/
theorem siblingsConsistent_of_detached {h : Heap} (hd : Detached h) : SiblingsConsistent h := by
  refine ⟨?_, ?_⟩
  · intro c n p hc hp
    rw [(hd c n hc).1] at hp
    cases hp
  · intro p pn hp
    obtain ⟨_, hf, hl⟩ := hd p pn hp
    refine ⟨[], List.nodup_nil, SiblingChain.nil, by rw [hf]; rfl, by rw [hl]; rfl, ?_⟩
    intro c n hc
    rw [(hd c n hc).1]
    simp

/-- A call of `appendChild` with a non-null child that returns has read the
receiver and the child. -/
theorem appendChild_some_reads {h h2 : Heap} {p c : Nat}
    (happ : appendChild h p (some c) = some h2) :
    (∃ pn : MarkdownNode, readNode h p = some pn) ∧
    (∃ cn : MarkdownNode, readNode h c = some cn) := by
  cases hc : readNode h c with
  | none =>
    have hw : ∀ f : MarkdownNode → MarkdownNode, writeNode h c f = none := by
      intro f
      unfold writeNode
      unfold readNode at hc
      rw [hc]
    simp [appendChild, hw] at happ
  | some cn =>
    obtain ⟨h1, w1, l1, r1⟩ := writeNode_spec (fun n => { n with parent := some p }) hc
    cases hp1 : readNode h1 p with
    | none =>
      simp [appendChild, w1, hp1] at happ
    | some t1 =>
      exact ⟨readNode_of_length_eq l1 hp1, cn, rfl⟩

/-- A sequence of `appendChild` calls that attaches detached nodes, each once,
keeps the heap consistent. -/
theorem attachAll_preserves :
    ∀ (ops : List (Nat × Nat)) (h h2 : Heap), SiblingsConsistent h →
      (ops.map Prod.snd).Nodup →
      (∀ c : Nat, c ∈ ops.map Prod.snd → ∀ n : MarkdownNode, readNode h c = some n →
        n.parent = none) →
      attachAll h ops = some h2 → SiblingsConsistent h2 := by
  intro ops
  induction ops with
  | nil =>
    intro h h2 hinv _ _ hatt
    simp only [attachAll] at hatt
    cases hatt
    exact hinv
  | cons op ops ih =>
    intro h h2 hinv hnd hdet hatt
    obtain ⟨p, c⟩ := op
    simp only [List.map_cons, List.nodup_cons] at hnd
    cases happ : appendChild h p (some c) with
    | none => simp [attachAll, happ] at hatt
    | some h1 =>
      simp only [attachAll, happ] at hatt
      obtain ⟨⟨pn, hp⟩, ⟨cn, hc⟩⟩ := appendChild_some_reads happ
      have hcd : cn.parent = none := hdet c (by simp) cn hc
      obtain ⟨h1b, happ2, hinv1, hlen, hframe⟩ := appendChild_preserves hinv hp hc hcd
      rw [happ] at happ2
      cases happ2
      apply ih h1 h2 hinv1 hnd.2 ?_ hatt
      intro d hd m hm
      have hdc : d ≠ c := fun e => hnd.1 (by rw [← e]; exact hd)
      obtain ⟨n, hn⟩ := readNode_of_length_eq hlen hm
      obtain ⟨m2, hm2, hpar⟩ := hframe d n hdc hn
      have hmm : m2 = m := readNode_unique hm2 hm
      subst hmm
      rw [hpar]
      exact hdet d (List.mem_cons_of_mem _ hd) n hn

/-- From every node of a sibling chain, `prev` links lead to the first. -/
theorem siblingChain_prev_reaches {h : Heap} {prev : Option Nat} {l : List Nat}
    (hc : SiblingChain h prev l) :
    ∀ x : Nat, x ∈ l →
      ∃ f : Nat, l.head? = some f ∧ Relation.ReflTransGen (PrevStep h) x f := by
  induction hc with
  | nil => intro x hx; cases hx
  | @cons prev a n l hr hp hn hc2 ih =>
    intro x hx
    rcases List.mem_cons.1 hx with rfl | hmem
    · exact ⟨x, rfl, Relation.ReflTransGen.refl⟩
    · obtain ⟨f, hf, hreach⟩ := ih x hmem
      refine ⟨a, rfl, ?_⟩
      cases hc2 with
      | nil => cases hmem
      | @cons _ b nb l2 hrb hpb _ _ =>
        simp only [List.head?_cons, Option.some.injEq] at hf
        subst hf
        exact Relation.ReflTransGen.tail hreach ⟨nb, hrb, hpb⟩

/-- From every node of a sibling chain, `next` links lead to the last. -/
theorem siblingChain_next_reaches {h : Heap} {prev : Option Nat} {l : List Nat}
    (hc : SiblingChain h prev l) :
    ∀ x : Nat, x ∈ l →
      ∃ t : Nat, l.getLast? = some t ∧ Relation.ReflTransGen (NextStep h) x t := by
  induction hc with
  | nil => intro x hx; cases hx
  | @cons prev a n l hr hp hn hc2 ih =>
    intro x hx
    cases l with
    | nil =>
      have hxa : x = a := by simpa using hx
      subst hxa
      exact ⟨x, rfl, Relation.ReflTransGen.refl⟩
    | cons b l2 =>
      have hlast : (a :: b :: l2).getLast? = (b :: l2).getLast? := List.getLast?_cons_cons
      rcases List.mem_cons.1 hx with rfl | hmem
      · obtain ⟨t, ht, hreach⟩ := ih b (List.mem_cons_self b l2)
        exact ⟨t, by rw [hlast, ht], Relation.ReflTransGen.head ⟨n, hr, hn⟩ hreach⟩
      · obtain ⟨t, ht, hreach⟩ := ih x hmem
        exact ⟨t, by rw [hlast, ht], hreach⟩

/-- In a duplicate-free sibling chain, a node is the first, with the `prev` of
the chain, or it is not the first and its `prev` is a node of the chain whose
`next` is the node. -/
theorem siblingChain_prev_cases {h : Heap} {prev : Option Nat} {l : List Nat}
    (hc : SiblingChain h prev l) :
    l.Nodup → ∀ (x : Nat) (nx : MarkdownNode), x ∈ l → readNode h x = some nx →
      (l.head? = some x ∧ nx.prev = prev) ∨
      (l.head? ≠ some x ∧ ∃ (y : Nat) (ny : MarkdownNode), y ∈ l ∧ nx.prev = some y ∧
        readNode h y = some ny ∧ ny.next = some x) := by
  induction hc with
  | nil => intro _ x nx hx; cases hx
  | @cons prev a n l hr hp hn hc2 ih =>
    intro hnd x nx hx hnx
    have hal : a ∉ l := (List.nodup_cons.1 hnd).1
    have hnd2 : l.Nodup := (List.nodup_cons.1 hnd).2
    rcases List.mem_cons.1 hx with rfl | hmem
    · left
      have hnn : n = nx := readNode_unique hr hnx
      subst hnn
      exact ⟨rfl, hp⟩
    · right
      have hxa : x ≠ a := fun e => hal (by rw [← e]; exact hmem)
      refine ⟨by simpa using fun e : a = x => hxa e.symm, ?_⟩
      rcases ih hnd2 x nx hmem hnx with ⟨hh, hpv⟩ | ⟨_, y, ny, hy, hpv, hry, hnxt⟩
      · exact ⟨a, n, List.mem_cons_self a l, hpv, hr, by rw [hn, hh]⟩
      · exact ⟨y, ny, List.mem_cons_of_mem a hy, hpv, hry, hnxt⟩

/-- In a duplicate-free sibling chain, a node is the last, with null `next`,
or it is not the last and its `next` is a node of the chain whose `prev` is
the node. -/
theorem siblingChain_next_cases {h : Heap} {prev : Option Nat} {l : List Nat}
    (hc : SiblingChain h prev l) :
    l.Nodup → ∀ (x : Nat) (nx : MarkdownNode), x ∈ l → readNode h x = some nx →
      (l.getLast? = some x ∧ nx.next = none) ∨
      (l.getLast? ≠ some x ∧ ∃ (y : Nat) (ny : MarkdownNode), y ∈ l ∧ nx.next = some y ∧
        readNode h y = some ny ∧ ny.prev = some x) := by
  induction hc with
  | nil => intro _ x nx hx; cases hx
  | @cons prev a n l hr hp hn hc2 ih =>
    intro hnd x nx hx hnx
    have hal : a ∉ l := (List.nodup_cons.1 hnd).1
    have hnd2 : l.Nodup := (List.nodup_cons.1 hnd).2
    cases l with
    | nil =>
      have hxa : x = a := by simpa using hx
      subst hxa
      have hnn : n = nx := readNode_unique hr hnx
      subst hnn
      left
      exact ⟨rfl, hn⟩
    | cons b l2 =>
      have hlast : (a :: b :: l2).getLast? = (b :: l2).getLast? := List.getLast?_cons_cons
      rcases List.mem_cons.1 hx with rfl | hmem
      · have hnn : n = nx := readNode_unique hr hnx
        subst hnn
        right
        refine ⟨?_, ?_⟩
        · rw [hlast]
          intro e
          exact hal (List.mem_of_getLast?_eq_some e)
        · cases hc2 with
          | @cons _ _ nb _ hrb hpb _ _ =>
            exact ⟨b, nb, List.mem_cons_of_mem _ (List.mem_cons_self b l2), hn, hrb, hpb⟩
      · rcases ih hnd2 x nx hmem hnx with ⟨hh, hnone⟩ | ⟨hh, y, ny, hy, hnxt, hry, hpv⟩
        · left
          exact ⟨by rw [hlast, hh], hnone⟩
        · right
          exact ⟨by rw [hlast]; exact hh, y, ny, List.mem_cons_of_mem a hy, hnxt, hry, hpv⟩

/-- Following `next` from the first node of a sibling chain visits the chain
in order and ends at the null pointer. -/
theorem nextChain_of_siblingChain {h : Heap} {prev : Option Nat} {l : List Nat}
    (hc : SiblingChain h prev l) : NextChain h l.head? l := by
  induction hc with
  | nil => exact NextChain.last
  | @cons prev a n l hr hp hn hc2 ih =>
    refine NextChain.step hr ?_
    rw [hn]
    exact ih

/-- Following `prev` from the last node of a sibling chain visits the chain in
reverse order and goes on with the chain before it. -/
theorem prevChain_of_siblingChain {h : Heap} {prev : Option Nat} {l : List Nat}
    (hc : SiblingChain h prev l) :
    ∀ lp : List Nat, PrevChain h prev lp →
      PrevChain h (if l = [] then prev else l.getLast?) (l.reverse ++ lp) := by
  induction hc with
  | nil => intro lp hlp; simpa using hlp
  | @cons prev a n l hr hp hn hc2 ih =>
    intro lp hlp
    have hstep : PrevChain h (some a) (a :: lp) := PrevChain.step hr (by rw [hp]; exact hlp)
    have := ih (a :: lp) hstep
    cases l with
    | nil => simpa using this
    | cons b l2 =>
      have hlast : (a :: b :: l2).getLast? = (b :: l2).getLast? := List.getLast?_cons_cons
      simp only [List.reverse_cons, List.append_assoc, List.singleton_append, if_false,
        hlast] at this ⊢
      simpa using this

/-- What sibling chain consistency says about a node that has a parent. -/
theorem siblingsConsistent_facts {h : Heap} (hinv : SiblingsConsistent h) {x p : Nat}
    {nx : MarkdownNode} (hx : readNode h x = some nx) (hpar : nx.parent = some p) :
    ∃ (pn : MarkdownNode) (first last : Nat) (cs : List Nat),
      readNode h p = some pn ∧ pn.firstChild = some first ∧ pn.lastChild = some last ∧
      Relation.ReflTransGen (PrevStep h) x first ∧
      Relation.ReflTransGen (NextStep h) x last ∧
      (nx.prev = none ↔ x = first) ∧ (nx.next = none ↔ x = last) ∧
      (∀ y : Nat, nx.next = some y →
        ∃ ny : MarkdownNode, readNode h y = some ny ∧ ny.parent = some p ∧ ny.prev = some x) ∧
      (∀ y : Nat, nx.prev = some y →
        ∃ ny : MarkdownNode, readNode h y = some ny ∧ ny.parent = some p ∧ ny.next = some x) ∧
      cs.Nodup ∧ x ∈ cs ∧
      (∀ (y : Nat) (ny : MarkdownNode), readNode h y = some ny →
        (ny.parent = some p ↔ y ∈ cs)) ∧
      NextChain h (some first) cs ∧ PrevChain h (some last) cs.reverse := by
  obtain ⟨hI1, hI2⟩ := hinv
  obtain ⟨pn, hp⟩ := hI1 x nx p hx hpar
  obtain ⟨cs, hnd, hch, hfirst, hlast, hmem⟩ := hI2 p pn hp
  have hxcs : x ∈ cs := (hmem x nx hx).1 hpar
  obtain ⟨first, hf, hreachf⟩ := siblingChain_prev_reaches hch x hxcs
  obtain ⟨last, hl, hreachl⟩ := siblingChain_next_reaches hch x hxcs
  have hne : cs ≠ [] := fun e => by rw [e] at hxcs; cases hxcs
  have hnc := nextChain_of_siblingChain hch
  have hpc := prevChain_of_siblingChain hch [] PrevChain.first
  rw [if_neg hne, List.append_nil, hl] at hpc
  rw [hf] at hnc
  refine ⟨pn, first, last, cs, hp, by rw [hfirst, hf], by rw [hlast, hl], hreachf, hreachl,
    ?_, ?_, ?_, ?_, hnd, hxcs, hmem, hnc, hpc⟩
  · rcases siblingChain_prev_cases hch hnd x nx hxcs hx with ⟨hh, hpv⟩ | ⟨hh, y, _, _, hpv, _⟩
    · rw [hf] at hh
      exact ⟨fun _ => (Option.some.inj hh).symm, fun _ => hpv⟩
    · rw [hf] at hh
      constructor
      · intro e
        rw [e] at hpv
        cases hpv
      · intro e
        exact absurd (by rw [e]) hh
  · rcases siblingChain_next_cases hch hnd x nx hxcs hx with ⟨hh, hnone⟩ | ⟨hh, y, _, _, hnxt, _⟩
    · rw [hl] at hh
      exact ⟨fun _ => (Option.some.inj hh).symm, fun _ => hnone⟩
    · rw [hl] at hh
      constructor
      · intro e
        rw [e] at hnxt
        cases hnxt
      · intro e
        exact absurd (by rw [e]) hh
  · intro y hy
    rcases siblingChain_next_cases hch hnd x nx hxcs hx with ⟨_, hnone⟩ | ⟨_, z, nz, hz, hnxt, hrz, hpv⟩
    · rw [hnone] at hy
      cases hy
    · rw [hnxt] at hy
      cases hy
      exact ⟨nz, hrz, (hmem y nz hrz).2 hz, hpv⟩
  · intro y hy
    rcases siblingChain_prev_cases hch hnd x nx hxcs hx with ⟨_, hpv⟩ | ⟨_, z, nz, hz, hpv, hrz, hnxt⟩
    · rw [hpv] at hy
      cases hy
    · rw [hpv] at hy
      cases hy
      exact ⟨nz, hrz, (hmem y nz hrz).2 hz, hnxt⟩

/-- Appending a node that is not among the linked children `done` of the
receiver links it after them. -/
theorem appendChild_linked {h : Heap} {p c : Nat} {pn cn : MarkdownNode} {done : List Nat}
    (hp : readNode h p = some pn) (hc : readNode h c = some cn)
    (hst : ChildrenLinked h pn done) (hcd : c ∉ done) :
    ∃ (h2 : Heap) (pn2 : MarkdownNode), appendChild h p (some c) = some h2 ∧
      h2.length = h.length ∧ readNode h2 p = some pn2 ∧
      ChildrenLinked h2 pn2 (done ++ [c]) := by
  obtain ⟨hnd, hch, hfirst, hlastc⟩ := hst
  have hempty : pn.firstChild = none ↔ done = [] := by
    rw [hfirst]
    cases done <;> simp
  have hlast : pn.firstChild ≠ none →
      ∃ (l : Nat) (ln : MarkdownNode), pn.lastChild = some l ∧ readNode h l = some ln := by
    intro hne
    have hdne : done ≠ [] := fun e => hne (hempty.2 e)
    cases hgl : done.getLast? with
    | none => exact absurd (List.getLast?_eq_none_iff.1 hgl) hdne
    | some l =>
      obtain ⟨ln, hln⟩ := siblingChain_read hch l (List.mem_of_getLast?_eq_some hgl)
      exact ⟨l, ln, by rw [hlastc hdne, hgl], hln⟩
  obtain ⟨h2, happ, hlen, heff⟩ := appendChild_effect hp hc hlast
  obtain ⟨pn2, hp2, _, _, _, _, hpf, hpl⟩ := heff p pn hp
  refine ⟨h2, pn2, happ, hlen, hp2, ?_, ?_, ?_, ?_⟩
  · rw [List.nodup_append]
    refine ⟨hnd, List.nodup_singleton c, ?_⟩
    intro x hx hxc
    rw [List.mem_singleton] at hxc
    subst hxc
    exact hcd hx
  · apply siblingChain_snoc hch hcd hnd
    · intro b hb n hn
      have hbc : b ≠ c := fun e => hcd (by rw [← e]; exact hb)
      have hdne : done ≠ [] := fun e => by rw [e] at hb; cases hb
      have hne : pn.firstChild ≠ none := fun e => hdne (hempty.1 e)
      obtain ⟨m, hm, _, _, hmp, hmn, _⟩ := heff b n hn
      refine ⟨m, hm, by rw [hmp, if_neg hbc], ?_⟩
      rw [hmn, if_neg hbc]
      by_cases hl : done.getLast? = some b
      · rw [if_pos hl, if_pos ⟨hne, by rw [hlastc hdne, hl]⟩]
      · rw [if_neg hl, if_neg (fun hx => hl (by rw [← hlastc hdne]; exact hx.2))]
    · obtain ⟨m, hm, _, _, hmp, hmn, _⟩ := heff c cn hc
      refine ⟨m, hm, ?_, by rw [hmn, if_pos rfl]⟩
      rw [hmp, if_pos rfl]
      by_cases he : done = []
      · rw [if_pos he, if_pos (hempty.2 he)]
      · rw [if_neg he, if_neg (fun hx => he (hempty.1 hx)), hlastc he]
  · rw [hpf]
    by_cases he : done = []
    · rw [if_pos ⟨rfl, hempty.2 he⟩, he]
      rfl
    · rw [if_neg (fun hx => he (hempty.1 hx.2)), hfirst]
      cases done with
      | nil => exact absurd rfl he
      | cons x l => rfl
  · intro _
    rw [hpl, if_pos rfl]
    simp

/-- Appending the nodes of `cs` in order, none of them among the linked
children `done` of the receiver and none twice, links them after `done` in
that order. -/
theorem attachAll_linked (p : Nat) :
    ∀ (cs done : List Nat) (h : Heap) (pn : MarkdownNode), readNode h p = some pn →
      ChildrenLinked h pn done → (done ++ cs).Nodup →
      (∀ x : Nat, x ∈ cs → ∃ n : MarkdownNode, readNode h x = some n) →
      ∃ (h2 : Heap) (pn2 : MarkdownNode),
        attachAll h (cs.map (fun x => (p, x))) = some h2 ∧ readNode h2 p = some pn2 ∧
        ChildrenLinked h2 pn2 (done ++ cs) := by
  intro cs
  induction cs with
  | nil =>
    intro done h pn hp hst _ _
    exact ⟨h, pn, rfl, hp, by simpa using hst⟩
  | cons c cs ih =>
    intro done h pn hp hst hnd hal
    obtain ⟨cn, hc⟩ := hal c (List.mem_cons_self c cs)
    have hcd : c ∉ done := by
      intro hx
      have := (List.nodup_append.1 hnd).2.2
      exact this hx (List.mem_cons_self c cs)
    obtain ⟨h1, pn1, happ, hlen, hp1, hst1⟩ := appendChild_linked hp hc hst hcd
    have hnd1 : ((done ++ [c]) ++ cs).Nodup := by simpa using hnd
    have hal1 : ∀ x : Nat, x ∈ cs → ∃ n : MarkdownNode, readNode h1 x = some n := by
      intro x hx
      obtain ⟨n, hn⟩ := hal x (List.mem_cons_of_mem c hx)
      exact readNode_of_length_eq hlen.symm hn
    obtain ⟨h2, pn2, hatt, hp2, hst2⟩ := ih (done ++ [c]) h1 pn1 hp1 hst1 hnd1 hal1
    refine ⟨h2, pn2, ?_, hp2, by simpa using hst2⟩
    simp only [List.map_cons, attachAll, happ]
    exact hatt

/-- C13: `appendChild` of an allocated node `c` to an allocated node `p` whose
last child, if it has children, is allocated and is not `c`: the call returns;
afterwards the parent of `c` is `p`, the last child of `p` is `c`, `c` has no
`next`, the `prev` of `c` is the former last child of `p` (null when `p` had no
child), the `next` of the former last child is `c`, and the first child of `p`
is `c` when `p` had no child and is unchanged otherwise. Hence appending
distinct allocated nodes in order to a node without children makes the first
of them the first child, the last of them the last child, and following `next`
from the first child visits them in that order. -/
theorem C13_appendChild (h : Heap) (p c : Nat) (pn cn : MarkdownNode)
    (hp : readNode h p = some pn) (hc : readNode h c = some cn)
    (hwf : pn.firstChild ≠ none →
      ∃ (l : Nat) (ln : MarkdownNode), pn.lastChild = some l ∧ readNode h l = some ln)
    (hnot : pn.firstChild ≠ none → pn.lastChild ≠ some c) :
    (∃ (h2 : Heap) (pn2 cn2 : MarkdownNode), appendChild h p (some c) = some h2 ∧
      readNode h2 p = some pn2 ∧ readNode h2 c = some cn2 ∧
      cn2.parent = some p ∧ pn2.lastChild = some c ∧ cn2.next = none ∧
      cn2.prev = (if pn.firstChild = none then none else pn.lastChild) ∧
      (∀ l : Nat, pn.firstChild ≠ none → pn.lastChild = some l →
        ∃ ln2 : MarkdownNode, readNode h2 l = some ln2 ∧ ln2.next = some c) ∧
      pn2.firstChild = (if pn.firstChild = none then some c else pn.firstChild)) ∧
    (∀ cs : List Nat, pn.firstChild = none → cs.Nodup →
      (∀ x : Nat, x ∈ cs → ∃ n : MarkdownNode, readNode h x = some n) →
      ∃ (h2 : Heap) (pn2 : MarkdownNode),
        attachAll h (cs.map (fun x => (p, x))) = some h2 ∧ readNode h2 p = some pn2 ∧
        pn2.firstChild = cs.head? ∧ (cs ≠ [] → pn2.lastChild = cs.getLast?) ∧
        NextChain h2 pn2.firstChild cs) := by
  constructor
  · obtain ⟨h2, happ, _, heff⟩ := appendChild_effect hp hc hwf
    obtain ⟨pn2, hp2, _, _, _, _, hpf, hpl⟩ := heff p pn hp
    obtain ⟨cn2, hc2, _, hcp, hcv, hcn, _⟩ := heff c cn hc
    refine ⟨h2, pn2, cn2, happ, hp2, hc2, by rw [hcp, if_pos rfl], by rw [hpl, if_pos rfl],
      by rw [hcn, if_pos rfl], by rw [hcv, if_pos rfl], ?_, ?_⟩
    · intro l hne hl
      obtain ⟨l2, ln, hl2, hln⟩ := hwf hne
      rw [hl] at hl2
      cases hl2
      have hlc : l ≠ c := fun e => hnot hne (by rw [hl, e])
      obtain ⟨ln2, hln2, _, _, _, hnx, _⟩ := heff l ln hln
      exact ⟨ln2, hln2, by rw [hnx, if_neg hlc, if_pos ⟨hne, hl⟩]⟩
    · rw [hpf]
      by_cases he : pn.firstChild = none
      · rw [if_pos ⟨rfl, he⟩, if_pos he]
      · rw [if_neg (fun hx => he hx.2), if_neg he]
  · intro cs hfc hnd hal
    have hst : ChildrenLinked h pn [] :=
      ⟨List.nodup_nil, SiblingChain.nil, by rw [hfc]; rfl, fun e => absurd rfl e⟩
    obtain ⟨h2, pn2, hatt, hp2, hst2⟩ :=
      attachAll_linked p cs [] h pn hp hst (by simpa using hnd) hal
    simp only [List.nil_append] at hst2
    obtain ⟨_, hch, hf, hl⟩ := hst2
    refine ⟨h2, pn2, hatt, hp2, hf, hl, ?_⟩
    rw [hf]
    exact nextChain_of_siblingChain hch

/-- C13, at the list node and its three items: the calls build the heap
`listOfThree`, in which the first child of the list is item 1, its last child
item 3, and `next` from item 1 visits the items 1, 2, 3. -/
theorem C13_appendChild_witness :
    attachAll listParts [(0, 1), (0, 2), (0, 3)] = some listOfThree ∧
    kindAt listOfThree 0 = some NodeType.NumberedList ∧
    NextChain listOfThree (some 1) [1, 2, 3] := by
  have hb : attachAll listParts [(0, 1), (0, 2), (0, 3)] = some listOfThree := by decide
  have hthm := C13_appendChild listParts 0 1
    { sampleNode NodeType.NumberedList with listStartNum := 5 } (sampleNode NodeType.ListItem)
    rfl rfl (fun hne => absurd rfl hne) (fun hne => absurd rfl hne)
  obtain ⟨h2, pn2, hatt, hp2, hf, _, hnc⟩ := hthm.2 [1, 2, 3] rfl (by decide)
    (fun x hx => by
      have hlt : x < listParts.length := by
        simp only [List.mem_cons, List.mem_singleton, List.not_mem_nil, or_false] at hx
        rcases hx with rfl | rfl | rfl <;> decide
      exact ⟨listParts[x], by unfold readNode; exact List.getElem?_eq_getElem hlt⟩)
  have he : attachAll listParts (List.map (fun x => (0, x)) [1, 2, 3]) = some listOfThree := hb
  rw [he] at hatt
  cases hatt
  rw [hf] at hnc
  exact ⟨hb, by decide, hnc⟩

/-- C14: sibling chain consistency holds in every heap that a sequence of
`appendChild` calls builds from detached nodes when no node is attached
twice; `appendChild` of a detached node preserves it; and in a consistent
heap, for every node with a parent: the first child of the parent is reached
by `prev` links and the last child by `next` links, the node has no `prev`
exactly when it is the first child and no `next` exactly when it is the last,
`next` and `prev` are inverse to each other among the children, and the
children form a list without duplicates that `next` traverses from the first
child to a null pointer and `prev` traverses backwards from the last. -/
theorem C14_sibling_chain_consistency :
    (∀ (h0 h : Heap) (ops : List (Nat × Nat)), Detached h0 → (ops.map Prod.snd).Nodup →
      attachAll h0 ops = some h → SiblingsConsistent h) ∧
    (∀ (h : Heap) (p c : Nat) (pn cn : MarkdownNode), SiblingsConsistent h →
      readNode h p = some pn → readNode h c = some cn → cn.parent = none →
      ∃ h2 : Heap, appendChild h p (some c) = some h2 ∧ SiblingsConsistent h2) ∧
    (∀ (h : Heap) (x p : Nat) (nx : MarkdownNode), SiblingsConsistent h →
      readNode h x = some nx → nx.parent = some p →
      ∃ (pn : MarkdownNode) (first last : Nat) (cs : List Nat),
        readNode h p = some pn ∧ pn.firstChild = some first ∧ pn.lastChild = some last ∧
        Relation.ReflTransGen (PrevStep h) x first ∧
        Relation.ReflTransGen (NextStep h) x last ∧
        (nx.prev = none ↔ x = first) ∧ (nx.next = none ↔ x = last) ∧
        (∀ y : Nat, nx.next = some y →
          ∃ ny : MarkdownNode, readNode h y = some ny ∧ ny.parent = some p ∧
            ny.prev = some x) ∧
        (∀ y : Nat, nx.prev = some y →
          ∃ ny : MarkdownNode, readNode h y = some ny ∧ ny.parent = some p ∧
            ny.next = some x) ∧
        cs.Nodup ∧ x ∈ cs ∧
        (∀ (y : Nat) (ny : MarkdownNode), readNode h y = some ny →
          (ny.parent = some p ↔ y ∈ cs)) ∧
        NextChain h (some first) cs ∧ PrevChain h (some last) cs.reverse) := by
  refine ⟨?_, ?_, ?_⟩
  · intro h0 h ops hd hnd hatt
    exact attachAll_preserves ops h0 h (siblingsConsistent_of_detached hd) hnd
      (fun c _ n hn => (hd c n hn).1) hatt
  · intro h p c pn cn hinv hp hc hdet
    obtain ⟨h2, happ, hinv2, _⟩ := appendChild_preserves hinv hp hc hdet
    exact ⟨h2, happ, hinv2⟩
  · intro h x p nx hinv hx hpar
    exact siblingsConsistent_facts hinv hx hpar

/-- The four nodes of `listParts` are detached. -/
theorem listParts_detached : Detached listParts := by
  intro a n hn
  rcases a with _ | _ | _ | _ | a <;> simp [readNode, listParts] at hn <;> subst hn <;>
    simp [sampleNode, defaultNode]

/-- C14, in the list of three items: the heap is consistent, and from the
second item `prev` leads to the first item and `next` to the third. -/
theorem C14_sibling_chain_consistency_witness :
    SiblingsConsistent listOfThree ∧
    Relation.ReflTransGen (PrevStep listOfThree) 2 1 ∧
    Relation.ReflTransGen (NextStep listOfThree) 2 3 := by
  have hb : attachAll listParts [(0, 1), (0, 2), (0, 3)] = some listOfThree := by decide
  have hinv : SiblingsConsistent listOfThree :=
    C14_sibling_chain_consistency.1 listParts listOfThree [(0, 1), (0, 2), (0, 3)]
      listParts_detached (by decide) hb
  obtain ⟨pn, first, last, cs, hp, hf, hl, hrf, hrl, _⟩ :=
    C14_sibling_chain_consistency.2.2 listOfThree 2 0
      { sampleNode NodeType.ListItem with parent := some 0, prev := some 1, next := some 3 }
      hinv rfl rfl
  have hp0 : readNode listOfThree 0 = some { sampleNode NodeType.NumberedList with
      listStartNum := 5, firstChild := some 1, lastChild := some 3 } := rfl
  rw [hp0] at hp
  cases hp
  cases hf
  cases hl
  exact ⟨hinv, hrf, hrl⟩

end MarkdownNode
